import Mathlib

/-!
Verification of the dependency-resolution and update engine of
`cargo-interactive-update` against its specification.

The development shallowly embeds the Rust sources (`src/cargo.rs`,
`src/api.rs`, `src/dependency.rs`) into Lean:

* pure functions become Lean functions;
* code that can panic (`expect`, `unwrap`, `panic!`) returns `Except String`
  (or `Option` where the source swallows the failure);
* the external crates the engine calls (`semver`, `cargo_lock`, `toml_edit`,
  `serde_json`, the HTTP transport) are modelled at their interfaces, with
  version values restricted to plain releases (no pre-release/build metadata),
  which is all the engine's comparisons exercise;
* the thread pool of `retrieve_outdated_dependencies` becomes a step relation
  on an explicit state.

String primitives (splitting, trimming, numeric parsing, ordering) are
implemented over `List Char` so that every definition evaluates by kernel
reduction.
-/
/-! ## Character-level string primitives (models of Rust `str` operations) -/
/-- ASCII whitespace test (model of the whitespace class used by `trim`). -/
def isSpaceChar (c : Char) : Bool :=
  c == ' ' || c == '\t' || c == '\n' || c == '\r'

/-- Trim whitespace from both ends (Rust `str::trim`). -/
def chTrim (l : List Char) : List Char :=
  ((l.dropWhile isSpaceChar).reverse.dropWhile isSpaceChar).reverse

/-- Split on every occurrence of a separator character (Rust `str::split`,
`String::splitOn` with a one-character pattern). -/
def chSplit (sep : Char) : List Char → List (List Char)
  | [] => [[]]
  | c :: rest =>
    let r := chSplit sep rest
    if c == sep then [] :: r
    else
      match r with
      | [] => [[c]]
      | h :: t => (c :: h) :: t

/-- Decimal digit value of a character, if it is a digit. -/
def digitVal? (c : Char) : Option Nat :=
  let n := c.toNat
  if 48 ≤ n && n ≤ 57 then some (n - 48) else none

/-- Parse a nonempty all-digit character list as a natural number
(Rust `str::parse::<u64>` restricted to plain digit strings). -/
def chToNat? (l : List Char) : Option Nat :=
  match l with
  | [] => none
  | _ =>
    l.foldl (fun acc c => do
      let a ← acc
      let d ← digitVal? c
      some (a * 10 + d)) (some 0)

/-- Lexicographic three-way comparison of character lists by code point
(model of Rust's byte-wise `str` ordering). -/
def chCmp : List Char → List Char → Ordering
  | [], [] => .eq
  | [], _ :: _ => .lt
  | _ :: _, [] => .gt
  | a :: as, b :: bs =>
    match compare a.toNat b.toNat with
    | .eq => chCmp as bs
    | o => o

/-- String wrappers for the character-level primitives. -/
def trimStr (s : String) : String := String.mk (chTrim s.toList)

/-- Split a string on a separator character. -/
def splitStr (sep : Char) (s : String) : List String :=
  (chSplit sep s.toList).map String.mk

/-- Parse a string as a natural number (digits only). -/
def natOfStr? (s : String) : Option Nat := chToNat? s.toList

/-- Rust's `str` three-way comparison (`Ord::cmp`). -/
def strCmp (a b : String) : Ordering := chCmp a.toList b.toList

/-! ## Model of the external `semver` crate (versions and requirements) -/
/-- A concrete semantic version `major.minor.patch` (release versions only;
the model omits pre-release and build metadata). -/
structure Version where
  major : Nat
  minor : Nat
  patch : Nat
deriving DecidableEq

instance : Inhabited Version := ⟨⟨0, 0, 0⟩⟩

/-- Comparator operators of the `semver` crate. -/
inductive Op where
  | exact
  | greater
  | greaterEq
  | less
  | lessEq
  | tilde
  | caret
  | wildcard
deriving DecidableEq

/-- One comparator of a version requirement: an operator applied to a
possibly partial version `major[.minor[.patch]]`. -/
structure Comparator where
  op : Op
  major : Nat
  minor : Option Nat
  patch : Option Nat
deriving DecidableEq

/-- A version requirement: the conjunction of a list of comparators
(`semver::VersionReq`). The empty list is `*`. -/
structure VersionReq where
  comparators : List Comparator
deriving DecidableEq

/-- `semver`'s `matches_exact` (on release versions). -/
def matchesExact (c : Comparator) (v : Version) : Bool :=
  v.major == c.major &&
  (match c.minor with | .none => true | .some m => v.minor == m) &&
  (match c.patch with | .none => true | .some p => v.patch == p)

/-- `semver`'s `matches_greater` (on release versions). -/
def matchesGreater (c : Comparator) (v : Version) : Bool :=
  if v.major ≠ c.major then v.major > c.major
  else match c.minor with
    | .none => false
    | .some m =>
      if v.minor ≠ m then v.minor > m
      else match c.patch with
        | .none => false
        | .some p => if v.patch ≠ p then v.patch > p else false

/-- `semver`'s `matches_less` (on release versions). -/
def matchesLess (c : Comparator) (v : Version) : Bool :=
  if v.major ≠ c.major then v.major < c.major
  else match c.minor with
    | .none => false
    | .some m =>
      if v.minor ≠ m then v.minor < m
      else match c.patch with
        | .none => false
        | .some p => if v.patch ≠ p then v.patch < p else false

/-- `semver`'s `matches_tilde` (on release versions). -/
def matchesTilde (c : Comparator) (v : Version) : Bool :=
  if v.major ≠ c.major then false
  else
    match c.minor with
    | .none => true
    | .some m =>
      if v.minor ≠ m then false
      else match c.patch with
        | .none => true
        | .some p => if v.patch ≠ p then v.patch > p else true

/-- `semver`'s `matches_caret` (on release versions). -/
def matchesCaret (c : Comparator) (v : Version) : Bool :=
  if v.major ≠ c.major then false
  else
    match c.minor with
    | .none => true
    | .some m =>
      match c.patch with
      | .none => if c.major > 0 then v.minor ≥ m else v.minor == m
      | .some p =>
        if c.major > 0 then
          if v.minor ≠ m then v.minor > m
          else if v.patch ≠ p then v.patch > p
          else true
        else if m > 0 then
          if v.minor ≠ m then false
          else if v.patch ≠ p then v.patch > p
          else true
        else if v.minor ≠ m || v.patch ≠ p then false
        else true

/-- Whether one comparator admits a version (`semver`'s `matches_impl`). -/
def matchesComp (c : Comparator) (v : Version) : Bool :=
  match c.op with
  | .exact => matchesExact c v
  | .wildcard => matchesExact c v
  | .greater => matchesGreater c v
  | .greaterEq => matchesExact c v || matchesGreater c v
  | .less => matchesLess c v
  | .lessEq => matchesExact c v || matchesLess c v
  | .tilde => matchesTilde c v
  | .caret => matchesCaret c v

/-- `semver::VersionReq::matches`: every comparator admits the version. -/
def VersionReq.matches (r : VersionReq) (v : Version) : Bool :=
  r.comparators.all (fun c => matchesComp c v)

/-- `semver::Version::parse`, restricted to release versions
`MAJOR.MINOR.PATCH`: anything else (fewer components, pre-release tags,
requirement operators, garbage) is rejected. -/
def Version.parse (s : String) : Option Version :=
  match (chSplit '.' s.toList).map chToNat? with
  | [some ma, some mi, some pa] => some ⟨ma, mi, pa⟩
  | _ => none

/-- Rendering of a version back to its string form (`Version::to_string`). -/
def Version.render (v : Version) : String :=
  toString v.major ++ "." ++ toString v.minor ++ "." ++ toString v.patch

/-- Is this component a wildcard marker (`*`, `x` or `X`)? -/
def isWildComponent (l : List Char) : Bool :=
  l == ['*'] || l == ['x'] || l == ['X']

/-- Parse one comparator of a requirement string: an optional operator
followed by a partial version; a trailing wildcard component turns the
comparator into a wildcard (only without an explicit operator, as in
`semver`). The default operator is caret. -/
def Comparator.parse (s : List Char) : Option Comparator :=
  let t := chTrim s
  let (explicitOp, rest) :=
    match t with
    | '>' :: '=' :: r => (some Op.greaterEq, r)
    | '<' :: '=' :: r => (some Op.lessEq, r)
    | '>' :: r => (some Op.greater, r)
    | '<' :: r => (some Op.less, r)
    | '=' :: r => (some Op.exact, r)
    | '~' :: r => (some Op.tilde, r)
    | '^' :: r => (some Op.caret, r)
    | r => (none, r)
  let rest := chTrim rest
  match chSplit '.' rest with
  | [a] => do
    let ma ← chToNat? a
    some ⟨explicitOp.getD Op.caret, ma, none, none⟩
  | [a, b] => do
    let ma ← chToNat? a
    if isWildComponent b then
      if explicitOp.isSome then none
      else some ⟨Op.wildcard, ma, none, none⟩
    else do
      let mi ← chToNat? b
      some ⟨explicitOp.getD Op.caret, ma, some mi, none⟩
  | [a, b, c] => do
    let ma ← chToNat? a
    let mi ← chToNat? b
    if isWildComponent c then
      if explicitOp.isSome then none
      else some ⟨Op.wildcard, ma, some mi, none⟩
    else do
      let pa ← chToNat? c
      some ⟨explicitOp.getD Op.caret, ma, some mi, some pa⟩
  | _ => none

/-- `semver::VersionReq::parse`: `*` is the empty requirement, otherwise a
comma-separated list of comparators, all of which must parse. -/
def VersionReq.parse (s : String) : Option VersionReq :=
  let t := chTrim s.toList
  if t == ['*'] then some ⟨[]⟩
  else ((chSplit ',' t).mapM Comparator.parse).map VersionReq.mk

/-! ## Model of the external `cargo_lock` crate -/
/-- One `[[package]]` record of `Cargo.lock`. -/
structure Package where
  name : String
  version : Version
deriving DecidableEq

instance : Inhabited Package := ⟨⟨"", default⟩⟩

/-- The lockfile's package list. `cargo_lock` stores it sorted by name
(several versions of one name may be adjacent). -/
abbrev Lockfile := List Package

/-! ## `find_matching_package` (src/cargo.rs) and its binary search -/
/-- The loop of Rust's `slice::binary_search_by`, fuelled for structural
recursion: repeatedly halve the window `[base, base+size)`, moving `base` to
the probe point whenever the probe does not compare `Greater`, until the
window has length one. The window shrinks by at least one per iteration, so
any fuel at least the initial size makes the fuel bound unreachable. -/
def bsLoopFuel (gt : Nat → Bool) : Nat → Nat → Nat → Nat
  | 0, base, _ => base
  | fuel + 1, base, size =>
    if 1 < size then
      let half := size / 2
      let mid := base + half
      bsLoopFuel gt fuel (if gt mid then base else mid) (size - half)
    else base

/-- The binary-search loop, started with sufficient fuel. -/
def bsLoop (gt : Nat → Bool) (base : Nat) (size : Nat) : Nat :=
  bsLoopFuel gt size base size

/-- Name of the package at an index (total, with a default). -/
def nameAt (packages : List Package) (i : Nat) : String :=
  (packages.getD i default).name

/-- Rust's `packages.binary_search_by_key(&package_name, |p| p.name)`:
`.ok i` when the final probe's name equals the key, otherwise
`.error insertion_point`. -/
def binarySearchByName (packages : List Package) (name : String) : Except Nat Nat :=
  if packages.length = 0 then .error 0
  else
    let base := bsLoop (fun i => strCmp (nameAt packages i) name == .gt) 0 packages.length
    match strCmp (nameAt packages base) name with
    | .eq => .ok base
    | .lt => .error (base + 1)
    | .gt => .error base

/-- `find_matching_package` (src/cargo.rs:282-329): binary-search an anchor;
return it when its version satisfies the requirement; otherwise scan forward
then backward while the name matches; `none` models the `panic!` calls. -/
def findMatchingPackage (packages : List Package) (package_name : String)
    (req : VersionReq) : Option Package :=
  match binarySearchByName packages package_name with
  | .error _ => none
  | .ok i =>
    let package := packages.getD i default
    if req.matches package.version then some package
    else
      let forward :=
        if i + 1 < packages.length then
          ((packages.drop (i + 1)).takeWhile (fun p => p.name == package_name)).find?
            (fun p => req.matches p.version)
        else none
      match forward with
      | some p => some p
      | none =>
        if 0 < i then
          ((packages.take i).reverse.takeWhile (fun p => p.name == package_name)).find?
            (fun p => req.matches p.version)
        else none

/-! ## Model of the external `toml_edit` crate

A document is a tree of items; every table entry carries an opaque trivia
string `pre` (the comments/whitespace attached to it), so that round-trip
fidelity of untouched parts is expressible: serialization is injective on
this model, hence two equal documents render to identical bytes. -/
/-- A `toml_edit` item (collapsing `Item::Value`/`Value` into one tree).
Table entries are `(pre-trivia, key, item)` triples. -/
inductive TomlItem where
  | str (s : String)
  | int (n : Int)
  | bool (b : Bool)
  | arr (xs : List TomlItem)
  | inlineTable (entries : List (String × String × TomlItem))
  | table (entries : List (String × String × TomlItem))
  | none

/-- A table entry: pre-trivia, key, item. -/
abbrev TomlEntry := String × String × TomlItem

/-- The trivia of an entry. -/
def entryPre (e : TomlEntry) : String := e.1

/-- The key of an entry. -/
def entryKey (e : TomlEntry) : String := e.2.1

/-- The item of an entry. -/
def entryItem (e : TomlEntry) : TomlItem := e.2.2

/-- First entry with the given key, if any (keys are unique in parsed TOML). -/
def entriesGet (es : List TomlEntry) (key : String) : Option TomlItem :=
  (es.find? (fun e => entryKey e == key)).map entryItem

/-- A parsed manifest document: top-level entries plus trailing trivia
(`toml_edit::DocumentMut`). -/
structure TomlDoc where
  root : List TomlEntry
  trailing : String

/-- `DocumentMut::get`. -/
def TomlDoc.get (d : TomlDoc) (key : String) : Option TomlItem :=
  entriesGet d.root key

/-- `Item::get` (table-like items only). -/
def TomlItem.get : TomlItem → String → Option TomlItem
  | .inlineTable es, k => entriesGet es k
  | .table es, k => entriesGet es k
  | _, _ => Option.none

/-- `Item::as_table_like`. -/
def TomlItem.asTableLike : TomlItem → Option (List TomlEntry)
  | .inlineTable es => some es
  | .table es => some es
  | _ => Option.none

/-- `Item::as_str` / `Value::as_str`. -/
def TomlItem.asStr : TomlItem → Option String
  | .str s => some s
  | _ => Option.none

/-- `Item::as_array`. -/
def TomlItem.asArray : TomlItem → Option (List TomlItem)
  | .arr xs => some xs
  | _ => Option.none

/-- Rebuild a table-like item with new entries, keeping its container shape. -/
def TomlItem.withEntries : TomlItem → List TomlEntry → TomlItem
  | .table _, es => .table es
  | .inlineTable _, es => .inlineTable es
  | it, _ => it

/-! ## Model of the external `serde_json` crate -/
/-- A JSON value. -/
inductive Json where
  | null
  | bool (b : Bool)
  | num (n : Int)
  | str (s : String)
  | arr (xs : List Json)
  | obj (fields : List (String × Json))

/-- `serde_json::Value::get` with a string key (objects only). -/
def Json.get : Json → String → Option Json
  | .obj fs, k => (fs.find? (fun f => f.1 == k)).map (fun f => f.2)
  | _, _ => Option.none

/-- `Value::as_str`. -/
def Json.asStr : Json → Option String
  | .str s => some s
  | _ => Option.none

/-- `Value::as_array`. -/
def Json.asArray : Json → Option (List Json)
  | .arr xs => some xs
  | _ => Option.none

/-- `Value::as_object`. -/
def Json.asObject : Json → Option (List (String × Json))
  | .obj fs => some fs
  | _ => Option.none

/-! ## src/api.rs -/
/-- The registry snapshot for one package (`CratesIoResponse`). -/
structure CratesIoResponse where
  repository : Option String
  description : Option String
  latest_version : String
  latest_version_date : Option String
  current_version_date : Option String
deriving DecidableEq

/-- Join character-list fragments with single spaces (Rust
`Vec<&str>::join(" ")`). -/
def joinSpace (ls : List (List Char)) : String :=
  String.mk (List.intercalate [' '] ls)

/-- `get_string_from_value` (src/api.rs:14-27): fetch a string field from an
optional JSON object, trim it, and replace newlines by spaces. -/
def getStringFromValue (value : Option (List (String × Json))) (key : String) :
    Option String := do
  let v ← value
  let j ← (v.find? (fun f => f.1 == key)).map (fun f => f.2)
  let s ← j.asStr
  some (joinSpace (chSplit '\n' (chTrim s.toList)))

/-- Rust `version.trim_start_matches(&['=', '^'])`. -/
def dropLeadingMarks (s : String) : String :=
  String.mk (s.toList.dropWhile (fun c => c == '=' || c == '^'))

/-- `get_field_from_versions` (src/api.rs:29-46): in the `versions` array,
find the record whose `num` equals the version (with leading `=`/`^`
stripped) and return its trimmed string field `key`. -/
def getFieldFromVersions (versions : Option (List Json)) (version key : String) :
    Option String := do
  let vs ← versions
  let v ← vs.find? (fun v =>
      (((v.get "num").bind Json.asStr).getD "") == dropLeadingMarks version)
  let j ← v.get key
  let s ← j.asStr
  some (trimStr s)

/-- `CratesIoResponse::from_value` (src/api.rs:48-63): all fields but
`latest_version` degrade to `none`; a missing/malformed
`crate.max_stable_version` makes the whole response `none`. -/
def CratesIoResponse.fromValue (value : Json) (version : String) :
    Option CratesIoResponse :=
  let data := (value.get "crate").bind Json.asObject
  let versions := (value.get "versions").bind Json.asArray
  match getStringFromValue data "max_stable_version" with
  | Option.none => Option.none
  | some latest_version =>
    some {
      repository := getStringFromValue data "repository"
      description := getStringFromValue data "description"
      latest_version_date := getFieldFromVersions versions latest_version "updated_at"
      current_version_date := getFieldFromVersions versions version "updated_at"
      latest_version }

/-- The body delivered by one registry HTTP exchange. -/
inductive HttpBody where
  | empty
  | json (j : Json)
  | invalid

/-- Outcome of one registry fetch at the transport boundary: either the
transfer itself fails (`transfer.perform().unwrap()` panics), or a body is
delivered. -/
inductive FetchOutcome where
  | netFail
  | response (body : HttpBody)

/-- `get_latest_version` (src/api.rs:65-110), with the transport supplied as
data: a failed transfer panics (`.error`), a body that is not valid JSON
fails with `serde_json`'s error (`.error`), an empty body is parsed as the
empty JSON object, and otherwise `from_value` interprets the body. -/
def getLatestVersion (fetch : FetchOutcome) (version : String) :
    Except String (Option CratesIoResponse) :=
  match fetch with
  | .netFail => .error "transfer failed"
  | .response .invalid => .error "body is not valid JSON"
  | .response .empty => .ok (CratesIoResponse.fromValue (Json.obj []) version)
  | .response (.json j) => .ok (CratesIoResponse.fromValue j version)

/-! ## src/dependency.rs -/
/-- The four dependency section kinds, in declaration order. -/
inductive DependencyKind where
  | normal
  | dev
  | build
  | workspace
deriving DecidableEq

/-- Numeric rank of a kind in its declaration order (basis of the derived
`Ord` on the Rust enum). -/
def DependencyKind.idx : DependencyKind → Nat
  | .normal => 0
  | .dev => 1
  | .build => 2
  | .workspace => 3

/-- `DependencyKind::cmp` (the derived `Ord`). -/
def kindCmp (a b : DependencyKind) : Ordering :=
  compare a.idx b.idx

/-- `DependencyKind::ordered()`. -/
def DependencyKind.ordered : List DependencyKind :=
  [.normal, .dev, .build, .workspace]

/-- An outdated-dependency record (`Dependency` in src/dependency.rs).
`package_name` holds the owning member's package name (the value passed as
`workspace_member` at the construction site in src/cargo.rs). -/
structure Dependency where
  name : String
  current_version : String
  latest_version : String
  repository : Option String
  description : Option String
  latest_version_date : Option String
  current_version_date : Option String
  kind : DependencyKind
  package_name : Option String
  workspace_path : Option String
deriving DecidableEq

/-- `impl Ord for Dependency` (src/dependency.rs:21-31): by kind, then by
name; all other fields are ignored. -/
def Dependency.cmp (a b : Dependency) : Ordering :=
  let ordering := kindCmp a.kind b.kind
  if ordering == .eq then strCmp a.name b.name else ordering

/-- The non-strict order induced by `Dependency::cmp`. -/
def depLE (a b : Dependency) : Prop := Dependency.cmp a b ≠ .gt

instance : DecidableRel depLE := fun a b => by
  unfold depLE; exact instDecidableNot

/-- Rust's stable `Vec::sort` on dependencies. A stable sort's output is
uniquely determined by the comparison and the input order, so the stable
insertion sort agrees with Rust's stable merge sort as a function. -/
def sortDependencies (l : List Dependency) : List Dependency :=
  List.insertionSort depLE l

/-- The joined result (`Dependencies` in src/dependency.rs): the outdated
records plus the path-keyed map of live manifest documents (the `HashMap`
modelled as an association list). -/
structure Dependencies where
  dependencies : List Dependency
  cargo_toml_files : List (String × TomlDoc)

/-- `Dependencies::filter_selected_dependencies` (src/dependency.rs:149-172):
keep the records whose selection flag is true (`zip` truncates to the shorter
of the two lists), and keep only the documents whose path is the owning path
of some kept record. -/
def filterSelectedDependencies (d : Dependencies) (selected : List Bool) :
    Dependencies :=
  let chosen := ((d.dependencies.zip selected).filter (fun x => x.2)).map (fun x => x.1)
  let workspace_paths := chosen.map (fun dep => dep.workspace_path.getD ".")
  { dependencies := chosen
    cargo_toml_files := d.cargo_toml_files.filter
      (fun f => workspace_paths.contains f.1) }

/-- The `toml_edit::value(..)` item written for an update: the latest version
as a bare string, `=`-prefixed when `pin` is requested
(src/dependency.rs:123-127). -/
def versionItem (pin : Bool) (latest : String) : TomlItem :=
  .str (if pin then "=" ++ latest else latest)

/-- `table["version"] = item`: replace the first entry with that key, keeping
its trivia; append a fresh entry when the key is absent. -/
def setEntry : List TomlEntry → String → TomlItem → List TomlEntry
  | [], key, item => [("", key, item)]
  | (pre, k, it) :: rest, key, item =>
    if k == key then (pre, k, item) :: rest
    else (pre, k, it) :: setEntry rest key item

/-- The body of the per-dependency update (src/dependency.rs:137-141): a bare
string entry is replaced outright; a table-like entry has only its `version`
field replaced; a missing entry is auto-vivified to a table holding only
`version` (toml_edit index-or-insert); any other entry shape panics when
indexed with `["version"]`. -/
def updateDepEntry : List TomlEntry → String → TomlItem → Except String (List TomlEntry)
  | [], name, newItem => .ok [("", name, .table [("", "version", newItem)])]
  | (pre, k, it) :: rest, name, newItem =>
    if k == name then
      match it with
      | .str _ => .ok ((pre, k, newItem) :: rest)
      | .table es => .ok ((pre, k, .table (setEntry es "version" newItem)) :: rest)
      | .inlineTable es => .ok ((pre, k, .inlineTable (setEntry es "version" newItem)) :: rest)
      | _ => .error "cannot index into a non-table dependency entry"
    else
      (updateDepEntry rest name newItem).map (fun r => (pre, k, it) :: r)

/-- Apply `updateDepEntry` inside a table-like section item. -/
def applySection (sec : TomlItem) (name : String) (newItem : TomlItem) :
    Except String TomlItem :=
  match sec.asTableLike with
  | Option.none => .error "cannot index into a non-table section"
  | some es => (updateDepEntry es name newItem).map sec.withEntries

/-- Transform the item of the entries whose key matches (keys are unique in
parsed documents). -/
def mapEntry (es : List TomlEntry) (key : String) (f : TomlItem → TomlItem) :
    List TomlEntry :=
  es.map (fun e => if entryKey e == key then (entryPre e, entryKey e, f (entryItem e)) else e)

/-- Transform the item under a key of a table-like item, in place. -/
def updateInTableLike (it : TomlItem) (key : String) (f : TomlItem → TomlItem) :
    TomlItem :=
  match it with
  | .table es => .table (mapEntry es key f)
  | .inlineTable es => .inlineTable (mapEntry es key f)
  | other => other

/-- The top-level-section case of the entry update (src/dependency.rs:129-141
for the Normal/Dev/Build kinds): `.error` models the `.unwrap()` panic on a
missing section. -/
def applyTopLevel (doc : TomlDoc) (secKey name : String) (ni : TomlItem) :
    Except String TomlDoc :=
  match doc.get secKey with
  | Option.none => .error "missing dependency section"
  | some sec =>
    (applySection sec name ni).map (fun sec2 =>
      TomlDoc.mk (mapEntry doc.root secKey (fun _ => sec2)) doc.trailing)

/-- The workspace case (`cargo_toml["workspace"].get_mut("dependencies")`):
the section lives one level down; `.error` models the `.unwrap()` panic. -/
def applyWorkspace (doc : TomlDoc) (name : String) (ni : TomlItem) :
    Except String TomlDoc :=
  match doc.get "workspace" with
  | Option.none => .error "missing workspace.dependencies section"
  | some ws =>
    match ws.get "dependencies" with
    | Option.none => .error "missing workspace.dependencies section"
    | some sec =>
      (applySection sec name ni).map (fun sec2 =>
        TomlDoc.mk
          (mapEntry doc.root "workspace"
            (fun w => updateInTableLike w "dependencies" (fun _ => sec2)))
          doc.trailing)

/-- Locate a dependency's section of a document by kind and update its entry
(src/dependency.rs:129-141). -/
def applyToDoc (doc : TomlDoc) (kind : DependencyKind) (name : String)
    (ni : TomlItem) : Except String TomlDoc :=
  match kind with
  | .workspace => applyWorkspace doc name ni
  | .dev => applyTopLevel doc "dev-dependencies" name ni
  | .build => applyTopLevel doc "build-dependencies" name ni
  | .normal => applyTopLevel doc "dependencies" name ni

/-- `HashMap::get_mut` on the path-keyed document map, followed by the
per-document update; `.error` models the `.unwrap()` panic when the path has
no document. -/
def updateFile (files : List (String × TomlDoc)) (path : String)
    (f : TomlDoc → Except String TomlDoc) : Except String (List (String × TomlDoc)) :=
  match files with
  | [] => .error "no document for workspace path"
  | (p, doc) :: rest =>
    if p == path then (f doc).map (fun d2 => (p, d2) :: rest)
    else (updateFile rest path f).map (fun r => (p, doc) :: r)

/-- The loop body of `apply_versions_by_kind` for one dependency. -/
def applyOneDep (files : List (String × TomlDoc)) (dep : Dependency) (pin : Bool) :
    Except String (List (String × TomlDoc)) :=
  updateFile files (dep.workspace_path.getD ".")
    (fun doc => applyToDoc doc dep.kind dep.name (versionItem pin dep.latest_version))

/-- `Dependencies::apply_versions_by_kind` (src/dependency.rs:111-143). -/
def applyVersionsByKind (files : List (String × TomlDoc)) (deps : List Dependency)
    (kind : DependencyKind) (pin : Bool) : Except String (List (String × TomlDoc)) :=
  (deps.filter (fun d => d.kind == kind)).foldlM
    (fun fs d => applyOneDep fs d pin) files

/-- `Dependencies::apply_versions` (src/dependency.rs:83-109), with the
filesystem writes reified: the result is the final document map together with
the list of `(path, document)` writes performed. An empty record list
short-circuits before mutating or writing anything; otherwise every document
in the map is serialized back to its path. -/
def applyVersions (d : Dependencies) (pin : Bool) :
    Except String (List (String × TomlDoc) × List (String × TomlDoc)) :=
  if d.dependencies.isEmpty then .ok (d.cargo_toml_files, [])
  else do
    let files ← DependencyKind.ordered.foldlM
      (fun fs k => applyVersionsByKind fs d.dependencies k pin) d.cargo_toml_files
    .ok (files, files)

/-! ## src/cargo.rs -/
/-- A declared dependency after extraction (`CargoDependency`): note that
`version` is the *locked* concrete version resolved from `Cargo.lock`, not
the requirement written in the manifest. -/
structure CargoDependency where
  name : String
  version : String
  package : Option String
  kind : DependencyKind
deriving DecidableEq

/-- `CargoDependency::get_latest_version_wrapper` (src/cargo.rs:21-52), with
the registry transport supplied as data. Outcomes: `.error` models the
panics (`expect` on the fetch result and on latest-version parsing);
`.ok none` covers a requirement-parse failure (`.ok()?`), a missing response
(`?`), and an up-to-date dependency; `.ok (some _)` is the outdated record. -/
def getLatestVersionWrapper (dep : CargoDependency) (fetch : FetchOutcome)
    (workspace_member : Option String) (workspace_path : Option String) :
    Except String (Option Dependency) :=
  match VersionReq.parse dep.version with
  | Option.none => .ok Option.none
  | some parsed_current_version_req =>
    match getLatestVersion fetch dep.version with
    | .error e => .error e
    | .ok Option.none => .ok Option.none
    | .ok (some response) =>
      match Version.parse response.latest_version with
      | Option.none => .error ("Latest version is not a valid semver for " ++ dep.name)
      | some parsed_latest_version =>
        if !(parsed_current_version_req.matches parsed_latest_version) then
          .ok (some {
            name := dep.name
            current_version := dep.version
            latest_version := response.latest_version
            repository := response.repository
            latest_version_date := response.latest_version_date
            current_version_date := response.current_version_date
            description := response.description
            kind := dep.kind
            package_name := workspace_member
            workspace_path })
        else .ok Option.none

/-- The body of the `flat_map` closure of `extract_dependencies_from_sections`
(src/cargo.rs:245-278) for one `(name, package_data)` entry: `.ok none` is a
skipped shape, `.error` models the two panics (invalid written requirement,
no matching lockfile package). -/
def extractEntry (lockfile : Lockfile) (kind : DependencyKind) (name : String)
    (package_data : TomlItem) : Except String (Option CargoDependency) :=
  let shape : Option (String × Option String) :=
    match package_data with
    | .str v => some (v, Option.none)
    | .inlineTable t => do
        let vi ← entriesGet t "version"
        let vs ← vi.asStr
        some (vs, (entriesGet t "package").bind TomlItem.asStr)
    | .table t => do
        let vi ← entriesGet t "version"
        let vs ← vi.asStr
        some (vs, (entriesGet t "package").bind TomlItem.asStr)
    | _ => Option.none
  match shape with
  | Option.none => .ok Option.none
  | some (version_req_str, package) =>
    match VersionReq.parse version_req_str with
    | Option.none => .error "must be a valid version requirement"
    | some version_req =>
      let package_name := package.getD name
      match findMatchingPackage lockfile package_name version_req with
      | Option.none =>
        .error ("unable to find matching crate " ++ package_name ++ " in Cargo.lock")
      | some p =>
        .ok (some { name, package, version := p.version.render, kind })

/-- `extract_dependencies_from_sections` (src/cargo.rs:230-280): a missing or
non-table section yields no entries; otherwise the entries are processed in
document order. -/
def extractDependenciesFromSections (dependencies_section : Option TomlItem)
    (kind : DependencyKind) (lockfile : Lockfile) :
    Except String (List CargoDependency) :=
  match dependencies_section with
  | Option.none => .ok []
  | some sec =>
    match sec.asTableLike with
    | Option.none => .ok []
    | some package_deps =>
      package_deps.foldlM
        (fun acc e => (extractEntry lockfile kind (entryKey e) (entryItem e)).map
          (fun r => acc ++ r.toList)) []

/-- `get_cargo_dependencies` (src/cargo.rs:175-208): the four sections
chained in order. -/
def getCargoDependencies (cargo_toml : TomlDoc) (lockfile : Lockfile) :
    Except String (List CargoDependency) := do
  let dependencies ←
    extractDependenciesFromSections (cargo_toml.get "dependencies") .normal lockfile
  let dev_dependencies ←
    extractDependenciesFromSections (cargo_toml.get "dev-dependencies") .dev lockfile
  let build_dependencies ←
    extractDependenciesFromSections (cargo_toml.get "build-dependencies") .build lockfile
  let workspace_dependencies ←
    extractDependenciesFromSections
      ((cargo_toml.get "workspace").bind (fun w => w.get "dependencies")) .workspace lockfile
  .ok (dependencies ++ dev_dependencies ++ build_dependencies ++ workspace_dependencies)

/-- `get_package_name` (src/cargo.rs:364-371). -/
def getPackageName (cargo_toml : TomlDoc) : String :=
  (((cargo_toml.get "package").bind (fun i => i.get "name")).bind TomlItem.asStr).getD ""

/-! The recursive workspace structure (`CargoDependencies`), with its member
map as a companion list type so that all recursion over it is structural. -/
mutual
inductive CargoDeps where
  | mk (cargo_toml : TomlDoc) (package_name : String)
      (dependencies : List CargoDependency)
      (workspace_members : MemberList)

inductive MemberList where
  | nil
  | cons (path : String) (member : CargoDeps) (rest : MemberList)
end

/-- The document of a workspace node. -/
def CargoDeps.cargo_toml : CargoDeps → TomlDoc
  | .mk t _ _ _ => t

/-- The package name of a workspace node. -/
def CargoDeps.package_name : CargoDeps → String
  | .mk _ p _ _ => p

/-- The declared dependencies of a workspace node. -/
def CargoDeps.dependencies : CargoDeps → List CargoDependency
  | .mk _ _ d _ => d

/-- The member map of a workspace node. -/
def CargoDeps.workspace_members : CargoDeps → MemberList
  | .mk _ _ _ m => m

/-! `CargoDependencies::len` (src/cargo.rs:154-161). -/
mutual
def CargoDeps.len : CargoDeps → Nat
  | .mk _ _ deps members => deps.length + MemberList.lenSum members

def MemberList.lenSum : MemberList → Nat
  | .nil => 0
  | .cons _ member rest => CargoDeps.len member + MemberList.lenSum rest
end

/-- The registry transport for a whole run: one fetch outcome per task,
keyed by the workspace path of the spawning invocation and the dependency. -/
abbrev FetchOracle := Option String → CargoDependency → FetchOutcome

/-! `CargoDependencies::retrieve_outdated_dependencies` (src/cargo.rs:90-152)
after all threads join, with the transport supplied by an oracle. A
direct-dependency thread whose wrapper panics makes `join` return `Err`,
which `flat_map` silently drops; member results are concatenated and the
final list re-sorted. The document map receives this node's document under
its workspace path (`"."` at the root) and then the members' maps. -/
mutual
def retrieveOutdatedDependencies (oracle : FetchOracle) :
    CargoDeps → Option String → Dependencies
  | .mk cargo_toml package_name deps members, workspace_path =>
    let direct := deps.filterMap (fun d =>
      match getLatestVersionWrapper d (oracle workspace_path d)
          (some package_name) workspace_path with
      | .error _ => Option.none
      | .ok r => r)
    let memberResults := retrieveMembers oracle members
    Dependencies.mk
      (sortDependencies (direct ++ memberResults.flatMap (fun r => r.dependencies)))
      ((workspace_path.getD ".", cargo_toml) ::
        memberResults.flatMap (fun r => r.cargo_toml_files))

def retrieveMembers (oracle : FetchOracle) : MemberList → List Dependencies
  | .nil => []
  | .cons path member rest =>
    retrieveOutdatedDependencies oracle member (some path) ::
      retrieveMembers oracle rest
end

/-! ### Workspace discovery (`gather_dependencies`) and the run pipeline -/
/-- Result of one filesystem read. -/
inductive FsResult where
  | ok (content : String)
  | ioError (msg : String)

/-- `read_cargo_file` (src/cargo.rs:163-173), parameterized by the TOML text
parser (external `toml_edit` parsing, instantiated concretely in witnesses):
a failed read degrades to the empty string (`unwrap_or_else`), a failed parse
panics (`.error`). -/
def readCargoFile (parse : String → Option TomlDoc) (fsRead : FsResult) :
    Except String TomlDoc :=
  let cargo_toml_content := match fsRead with
    | .ok s => s
    | .ioError _ => ""
  match parse cargo_toml_content with
  | some d => .ok d
  | Option.none => .error "Unable to parse Cargo.toml file as TOML"

/-- `read_cargo_lock_file` (src/cargo.rs:210-228): try up to seven directory
levels (a missing parent or exhausted attempts panic); a load failure at one
level (missing or unparsable lockfile) moves to the next. -/
def firstLock : Nat → List (Option Lockfile) → Except String Lockfile
  | 0, _ => .error "Unable to read Cargo.lock file"
  | _ + 1, [] => .error "Unable to read Cargo.lock file"
  | n + 1, a :: rest =>
    match a with
    | some l => .ok l
    | Option.none => firstLock n rest

/-- The lockfile search with the source's fixed bound of seven levels. -/
def readCargoLockFile (lockAttempts : List (Option Lockfile)) : Except String Lockfile :=
  firstLock 7 lockAttempts

/-- `[workspace].members` entries that are strings and not `"."`
(src/cargo.rs:331-362). -/
def getWorkspaceMemberPaths (cargo_toml : TomlDoc) : List String :=
  match ((cargo_toml.get "workspace").bind (fun i => i.get "members")).bind
      TomlItem.asArray with
  | Option.none => []
  | some ms =>
    ms.foldl (fun acc m =>
      match m.asStr with
      | Option.none => acc
      | some s => if s == "." then acc else acc ++ [s]) []

/-- `gather_dependencies_inner` with `should_retrieve_workspace_members =
false`: one member manifest, no further nesting. -/
def gatherLeaf (parse : String → Option TomlDoc) (fs : String → FsResult)
    (lockfile : Lockfile) (relative_path : String) : Except String CargoDeps := do
  let cargo_toml ← readCargoFile parse (fs relative_path)
  let deps ← getCargoDependencies cargo_toml lockfile
  .ok (.mk cargo_toml (getPackageName cargo_toml) deps .nil)

/-- Gather all members of a root document. -/
def gatherMembers (parse : String → Option TomlDoc) (fs : String → FsResult)
    (lockfile : Lockfile) : List String → Except String MemberList
  | [] => .ok .nil
  | m :: rest => do
    let cd ← gatherLeaf parse fs lockfile m
    let tail ← gatherMembers parse fs lockfile rest
    .ok (.cons m cd tail)

/-- `gather_dependencies_inner` with `should_retrieve_workspace_members =
true` (the root), then `gather_dependencies` (src/cargo.rs:63-88). -/
def gatherRoot (parse : String → Option TomlDoc) (fs : String → FsResult)
    (lockfile : Lockfile) : Except String CargoDeps := do
  let cargo_toml ← readCargoFile parse (fs ".")
  let deps ← getCargoDependencies cargo_toml lockfile
  let members ← gatherMembers parse fs lockfile (getWorkspaceMemberPaths cargo_toml)
  .ok (.mk cargo_toml (getPackageName cargo_toml) deps members)

/-- `gather_dependencies`: lockfile first, then the root manifest. -/
def gatherDependencies (parse : String → Option TomlDoc) (fs : String → FsResult)
    (lockAttempts : List (Option Lockfile)) : Except String CargoDeps := do
  let lockfile ← readCargoLockFile lockAttempts
  gatherRoot parse fs lockfile

/-! The registry fetches a gathered workspace will perform: one per declared
dependency whose locked version parses as a requirement (the wrapper returns
before fetching when that parse fails). -/
mutual
def fetchCallsOne : CargoDeps → List CargoDependency
  | .mk _ _ deps members =>
    deps.filter (fun d => (VersionReq.parse d.version).isSome) ++ fetchCallsMany members

def fetchCallsMany : MemberList → List CargoDependency
  | .nil => []
  | .cons _ member rest => fetchCallsOne member ++ fetchCallsMany rest
end

/-- The run up to the joined outdated list (main.rs): gather, then resolve.
The first component is the list of registry fetches performed; a
configuration error aborts with no fetch ever issued. -/
def runPipeline (parse : String → Option TomlDoc) (fs : String → FsResult)
    (lockAttempts : List (Option Lockfile)) (oracle : FetchOracle) :
    List CargoDependency × Except String Dependencies :=
  match gatherDependencies parse fs lockAttempts with
  | .error e => ([], .error e)
  | .ok cd => (fetchCallsOne cd, .ok (retrieveOutdatedDependencies oracle cd Option.none))

/-! ## Demo data used by witnesses and counterexamples -/
/-- A registry that always reports latest stable version `9.0.0` and nothing
else. -/
def demoOracle : FetchOracle := fun _ _ =>
  .response (.json (Json.obj [("crate", Json.obj [("max_stable_version", Json.str "9.0.0")])]))

/-- A workspace member named `pa` declaring locked `serde 1.0.0`. -/
def demoLeafA : CargoDeps :=
  .mk ⟨[], ""⟩ "pa" [⟨"serde", "1.0.0", Option.none, .normal⟩] .nil

/-- A workspace member named `pb` declaring locked `serde 1.0.0`. -/
def demoLeafB : CargoDeps :=
  .mk ⟨[], ""⟩ "pb" [⟨"serde", "1.0.0", Option.none, .normal⟩] .nil

/-- A root workspace whose member map iterates `a` before `b`. -/
def demoRootAB : CargoDeps :=
  .mk ⟨[], ""⟩ "root" [] (.cons "a" demoLeafA (.cons "b" demoLeafB .nil))

/-- The same root workspace with the member map iterated `b` before `a`
(`HashMap` iteration order is unspecified, so both orders are possible
executions on the same workspace). -/
def demoRootBA : CargoDeps :=
  .mk ⟨[], ""⟩ "root" [] (.cons "b" demoLeafB (.cons "a" demoLeafA .nil))

instance {ε α : Type} [DecidableEq ε] [DecidableEq α] : DecidableEq (Except ε α) := fun a b =>
  match a, b with
  | .error e, .error f =>
    if h : e = f then .isTrue (congrArg Except.error h)
    else .isFalse (fun hh => h (Except.error.inj hh))
  | .error _, .ok _ => .isFalse (fun hh => Except.noConfusion hh)
  | .ok _, .error _ => .isFalse (fun hh => Except.noConfusion hh)
  | .ok x, .ok y =>
    if h : x = y then .isTrue (congrArg Except.ok h)
    else .isFalse (fun hh => h (Except.ok.inj hh))

/-- The manifest section `[dependencies] a = ">=1.0.0"` used to refute C1. -/
def demoC1Section : TomlItem := .table [("", "a", .str ">=1.0.0")]

/-- A lockfile holding only `a 1.0.0`. -/
def demoC1Lock : Lockfile := [⟨"a", ⟨1, 0, 0⟩⟩]

/-- The extracted dependency for the C1 scenario: the `version` field is the
locked version, not the written requirement. -/
def demoC1Dep : CargoDependency := ⟨"a", "1.0.0", Option.none, .normal⟩

/-- A fetch outcome reporting latest stable version `9.0.0`. -/
def demoFetch9 : FetchOutcome :=
  .response (.json (Json.obj [("crate", Json.obj [("max_stable_version", Json.str "9.0.0")])]))

/-- A registry body whose `crate` object lacks `max_stable_version`. -/
def demoNoLatestJson : Json := Json.obj [("crate", Json.obj [("repository", Json.str "r")])]

/-- A TOML text parser accepting exactly the empty manifest (used to
instantiate the external parser in concrete scenarios). -/
def parseEmptyOnly : String → Option TomlDoc :=
  fun s => if s = "" then some ⟨[], ""⟩ else Option.none

/-- A filesystem on which every read fails. -/
def fsAllMissing : String → FsResult := fun _ => .ioError "No such file"

/-- Key membership in the path-keyed document map. -/
def hasKey (files : List (String × TomlDoc)) (k : String) : Bool :=
  files.any (fun f => f.1 == k)

/-- The outdated record contributed by demo member `a`. -/
def demoRecordA : Dependency :=
  ⟨"serde", "1.0.0", "9.0.0", Option.none, Option.none, Option.none, Option.none,
   .normal, some "pa", some "a"⟩

/-! ## Document-level helpers and frame lemmas for the manifest writer -/
/-- Lookup of a document in the path-keyed map. -/
def lookupFile (files : List (String × TomlDoc)) (path : String) : Option TomlDoc :=
  (files.find? (fun f => f.1 == path)).map (fun f => f.2)

/-- The dependency section of a document for a kind, along the same lookup
path `apply_versions_by_kind` uses. -/
def sectionOf (doc : TomlDoc) : DependencyKind → Option TomlItem
  | .workspace => (doc.get "workspace").bind (fun w => w.get "dependencies")
  | .dev => doc.get "dev-dependencies"
  | .build => doc.get "build-dependencies"
  | .normal => doc.get "dependencies"

/-- The entries of the section, when it is table-like. -/
def sectionEntriesOf (doc : TomlDoc) (kind : DependencyKind) : Option (List TomlEntry) :=
  (sectionOf doc kind).bind TomlItem.asTableLike

/-- The dependency entry of a document under (kind, name). -/
def sectionEntryGet (doc : TomlDoc) (kind : DependencyKind) (name : String) :
    Option TomlItem :=
  (sectionEntriesOf doc kind).bind (fun es => entriesGet es name)

/-- The root key owning a kind's section. -/
def rootKeyOf : DependencyKind → String
  | .workspace => "workspace"
  | .dev => "dev-dependencies"
  | .build => "build-dependencies"
  | .normal => "dependencies"

/-- The four root keys the writer may touch. -/
def rootSectionKeys : List String :=
  ["dependencies", "dev-dependencies", "build-dependencies", "workspace"]

/-- Does some record of the list target (path, kind, name)? -/
def targetsB (deps : List Dependency) (path : String) (kind : DependencyKind)
    (name : String) : Bool :=
  deps.any (fun d =>
    d.workspace_path.getD "." == path && d.kind == kind && d.name == name)

/-- The entry skeleton: trivia and key of every entry, in order. -/
def skeleton (es : List TomlEntry) : List (String × String) :=
  es.map (fun e => (entryPre e, entryKey e))

/-- The frame relation of the manifest writer: relative to the pre-mutation
map `files0` and the full selected list `deps`, a later map `files` has the
same path keys; and every document still present agrees with its original on
trailing trivia, on the root skeleton (trivia and keys, in order), on all
root entries outside the four dependency-section keys, on every section entry
not targeted by some selected record, on section skeletons up to appended
entries, and on all `[workspace]` sub-entries other than `dependencies`. -/
def FilesFrame (deps : List Dependency) (files0 files : List (String × TomlDoc)) : Prop :=
  files.map (fun f => f.1) = files0.map (fun f => f.1) ∧
  ∀ p doc0 doc, lookupFile files0 p = some doc0 → lookupFile files p = some doc →
    doc.trailing = doc0.trailing ∧
    skeleton doc.root = skeleton doc0.root ∧
    (∀ k, ¬ k ∈ rootSectionKeys → entriesGet doc.root k = entriesGet doc0.root k) ∧
    (∀ kind name, targetsB deps p kind name = false →
      sectionEntryGet doc kind name = sectionEntryGet doc0 kind name) ∧
    (∀ kind es0 es, sectionEntriesOf doc0 kind = some es0 →
      sectionEntriesOf doc kind = some es →
      (skeleton es).take es0.length = skeleton es0) ∧
    (∀ k, k ≠ "dependencies" →
      ((doc.get "workspace").getD TomlItem.none).get k =
        ((doc0.get "workspace").getD TomlItem.none).get k)

/-- A demo manifest with a comment, a bare-string entry and a renamed table
entry. -/
def demoDoc : TomlDoc :=
  ⟨[("# top comment\n", "dependencies", .table
      [("", "serde", .str "1.0.0"),
       ("# keep\n", "renamed", .table
         [("", "version", .str "2.0.0"), ("", "package", .str "real-name")])])], "\n"⟩

/-- The same document with the renamed entry written as an inline table
`renamed = { version = "2.0.0", package = "real-name" }`. -/
def demoDocI : TomlDoc :=
  ⟨[("# top comment\n", "dependencies", .table
      [("", "serde", .str "1.0.0"),
       ("# keep\n", "renamed", .inlineTable
         [("", "version", .str "2.0.0"), ("", "package", .str "real-name")])])], "\n"⟩

/-- The demo manifest after updating `serde` to `9.0.0` unpinned. -/
def demoDoc2 : TomlDoc :=
  ⟨[("# top comment\n", "dependencies", .table
      [("", "serde", .str "9.0.0"),
       ("# keep\n", "renamed", .table
         [("", "version", .str "2.0.0"), ("", "package", .str "real-name")])])], "\n"⟩

/-- An outdated record for the demo manifest's `serde` entry. -/
def demoDep1 : Dependency :=
  ⟨"serde", "1.0.0", "9.0.0", Option.none, Option.none, Option.none, Option.none,
   .normal, Option.none, Option.none⟩

/-- An outdated record for the demo manifest's renamed table entry. -/
def demoDep2 : Dependency :=
  ⟨"renamed", "2.0.0", "3.0.0", Option.none, Option.none, Option.none, Option.none,
   .normal, Option.none, Option.none⟩

/-- The demo joined result: one record, one document. -/
def demoDD : Dependencies := ⟨[demoDep1], [(".", demoDoc)]⟩

/-- A small name-sorted lockfile: two versions of `aa`, then `bb`, `cc`. -/
def c2Lock : Lockfile :=
  [⟨"aa", ⟨1, 0, 0⟩⟩, ⟨"aa", ⟨2, 0, 0⟩⟩, ⟨"bb", ⟨1, 5, 0⟩⟩, ⟨"cc", ⟨0, 3, 1⟩⟩]

/-- The requirement `^2.0.0`. -/
def c2Req : VersionReq := ⟨[⟨Op.caret, 2, some 0, some 0⟩]⟩

/-! ## Concurrency model for `retrieve_outdated_dependencies` (C5)

Each invocation of `retrieve_outdated_dependencies` (the root and,
recursively, every workspace member) creates its own
`Arc::new(Mutex::new(0))` slot counter. Every spawned fetch thread
spin-waits until its invocation's counter is below 5, increments it,
runs `get_latest_version_wrapper`, and decrements the counter afterwards;
a panicking fetch unwinds past the decrement. Mutex acquisition makes the
counter operations atomic, so the whole run is an interleaving of the
atomic steps below; `owner` identifies the invocation whose counter a
task uses. -/
/-- The lifecycle of one fetch thread. -/
inductive TaskPhase where
  | waiting
  | running
  | done
  | panicked
deriving DecidableEq

/-- One fetch task: the invocation that spawned it and its current phase. -/
structure ConcTask where
  owner : Nat
  phase : TaskPhase
deriving DecidableEq

instance : Inhabited ConcTask := ⟨⟨0, TaskPhase.waiting⟩⟩

/-- Global state: all spawned fetch tasks and, for each invocation, that
invocation's `active_requests` counter (every counter starts at 0). -/
structure ConcState where
  tasks : List ConcTask
  counter : Nat → Nat

/-- Pointwise counter update. -/
def updateCounter (c : Nat → Nat) (o : Nat) (v : Nat) : Nat → Nat :=
  fun x => if x = o then v else c x

/-- Replace the phase of the `k`-th task. -/
def setPhase : List ConcTask → Nat → TaskPhase → List ConcTask
  | [], _, _ => []
  | t :: ts, 0, ph => ⟨t.owner, ph⟩ :: ts
  | t :: ts, k + 1, ph => t :: setPhase ts k ph

/-- Number of tasks of invocation `o` currently in phase `ph`. -/
def countPh (ts : List ConcTask) (o : Nat) (ph : TaskPhase) : Nat :=
  (ts.filter (fun t => decide (t.owner = o ∧ t.phase = ph))).length

/-- The atomic steps of the fetch machinery (src/cargo.rs:90-132): spawning
a thread, the spin-wait loop body succeeding (`*count < 5` then `+= 1`),
the fetch returning (`-= 1` under the lock), and the fetch panicking, which
unwinds past the decrement. -/
inductive ConcStep : ConcState → ConcState → Prop where
  | spawn (s : ConcState) (o : Nat) :
      ConcStep s ⟨s.tasks ++ [⟨o, TaskPhase.waiting⟩], s.counter⟩
  | acquire (s : ConcState) (k : Nat) (hk : k < s.tasks.length)
      (hw : (s.tasks.getD k default).phase = TaskPhase.waiting)
      (hc : s.counter (s.tasks.getD k default).owner < 5) :
      ConcStep s ⟨setPhase s.tasks k TaskPhase.running,
        updateCounter s.counter (s.tasks.getD k default).owner
          (s.counter (s.tasks.getD k default).owner + 1)⟩
  | finish (s : ConcState) (k : Nat) (hk : k < s.tasks.length)
      (hr : (s.tasks.getD k default).phase = TaskPhase.running) :
      ConcStep s ⟨setPhase s.tasks k TaskPhase.done,
        updateCounter s.counter (s.tasks.getD k default).owner
          (s.counter (s.tasks.getD k default).owner - 1)⟩
  | unwind (s : ConcState) (k : Nat) (hk : k < s.tasks.length)
      (hr : (s.tasks.getD k default).phase = TaskPhase.running) :
      ConcStep s ⟨setPhase s.tasks k TaskPhase.panicked, s.counter⟩

/-- The initial state of a run: no tasks, all counters 0. -/
def concInit : ConcState := ⟨[], fun _ => 0⟩

/-- State after spawning one task for invocation 0 and acquiring its slot. -/
def c5Demo1 : ConcState := ⟨[⟨0, TaskPhase.running⟩], updateCounter (fun _ => 0) 0 1⟩

/-! ## Order-theoretic facts about the comparison functions -/
theorem chCmp_cons_cons (a b : Char) (as bs : List Char) :
    chCmp (a :: as) (b :: bs) =
      (match compare a.toNat b.toNat with
       | .eq => chCmp as bs
       | o => o) := rfl

theorem charToNat_inj {a b : Char} (h : a.toNat = b.toNat) : a = b := by
  have ha := Char.ofNat_toNat a
  have hb := Char.ofNat_toNat b
  rw [← ha, ← hb, h]

theorem chCmp_eq_eq : ∀ {a b : List Char}, chCmp a b = .eq ↔ a = b
  | [], [] => by simp [chCmp]
  | [], _ :: _ => by simp [chCmp]
  | _ :: _, [] => by simp [chCmp]
  | a :: as, b :: bs => by
    rw [chCmp_cons_cons]
    rcases hab : compare a.toNat b.toNat with _ | _ | _
    · simp only [List.cons.injEq]
      constructor
      · intro h
        simp at h
      · rintro ⟨h1, _⟩
        exact absurd (congrArg Char.toNat h1) (Nat.ne_of_lt (Nat.compare_eq_lt.mp hab))
    · have hb : a = b := charToNat_inj (Nat.compare_eq_eq.mp hab)
      subst hb
      simp [chCmp_eq_eq]
    · simp only [List.cons.injEq]
      constructor
      · intro h
        simp at h
      · rintro ⟨h1, _⟩
        exact absurd (congrArg Char.toNat h1).symm (Nat.ne_of_lt (Nat.compare_eq_gt.mp hab))

theorem chCmp_swap : ∀ (a b : List Char), (chCmp a b).swap = chCmp b a
  | [], [] => rfl
  | [], _ :: _ => rfl
  | _ :: _, [] => rfl
  | a :: as, b :: bs => by
    rw [chCmp_cons_cons, chCmp_cons_cons]
    have h := Nat.compare_swap a.toNat b.toNat
    rcases hab : compare a.toNat b.toNat with _ | _ | _ <;>
      rw [hab] at h <;> rw [← h]
    · rfl
    · exact chCmp_swap as bs
    · rfl

theorem chCmp_ne_gt_cons {a b : Char} {as bs : List Char} :
    chCmp (a :: as) (b :: bs) ≠ .gt ↔
      (a.toNat < b.toNat ∨ (a.toNat = b.toNat ∧ chCmp as bs ≠ .gt)) := by
  rw [chCmp_cons_cons]
  rcases hab : compare a.toNat b.toNat with _ | _ | _
  · have h := Nat.compare_eq_lt.mp hab
    constructor
    · intro _
      exact Or.inl h
    · intro _
      exact fun hh => Ordering.noConfusion hh
  · have h := Nat.compare_eq_eq.mp hab
    constructor
    · intro hr
      exact Or.inr ⟨h, hr⟩
    · intro hr
      rcases hr with hr | hr
      · omega
      · exact hr.2
  · have h := Nat.compare_eq_gt.mp hab
    constructor
    · intro hg
      exact absurd rfl hg
    · intro hr
      rcases hr with hr | hr
      · omega
      · obtain ⟨hr1, _⟩ := hr
        omega

theorem chCmp_le_trans : ∀ (a b c : List Char),
    chCmp a b ≠ .gt → chCmp b c ≠ .gt → chCmp a c ≠ .gt
  | [], _, c, _, _ => by cases c <;> simp [chCmp]
  | _ :: _, [], _, h1, _ => by simp [chCmp] at h1
  | _ :: _, _ :: _, [], _, h2 => by simp [chCmp] at h2
  | a :: as, b :: bs, c :: cs, h1, h2 => by
    rw [chCmp_ne_gt_cons] at h1 h2 ⊢
    rcases h1 with h1 | ⟨h1e, h1r⟩
    · rcases h2 with h2 | ⟨h2e, h2r⟩
      · exact Or.inl (Nat.lt_trans h1 h2)
      · exact Or.inl (h2e ▸ h1)
    · rcases h2 with h2 | ⟨h2e, h2r⟩
      · exact Or.inl (h1e ▸ h2)
      · exact Or.inr ⟨h1e.trans h2e, chCmp_le_trans as bs cs h1r h2r⟩

theorem strCmp_eq_eq {a b : String} : strCmp a b = .eq ↔ a = b := by
  unfold strCmp
  rw [chCmp_eq_eq]
  constructor
  · intro h
    cases a
    cases b
    exact congrArg String.mk (by simpa using h)
  · intro h
    rw [h]

theorem strCmp_swap (a b : String) : (strCmp a b).swap = strCmp b a :=
  chCmp_swap a.toList b.toList

theorem strCmp_le_trans {a b c : String} (h1 : strCmp a b ≠ .gt)
    (h2 : strCmp b c ≠ .gt) : strCmp a c ≠ .gt :=
  chCmp_le_trans a.toList b.toList c.toList h1 h2

theorem kindCmp_swap (a b : DependencyKind) : (kindCmp a b).swap = kindCmp b a := by
  unfold kindCmp
  rw [Nat.compare_swap]

theorem depCmp_swap (a b : Dependency) : (Dependency.cmp a b).swap = Dependency.cmp b a := by
  unfold Dependency.cmp
  rw [← kindCmp_swap a.kind b.kind]
  rcases h : kindCmp a.kind b.kind with _ | _ | _
  · rfl
  · exact strCmp_swap a.name b.name
  · rfl

theorem depLE_total (a b : Dependency) : depLE a b ∨ depLE b a := by
  unfold depLE
  by_cases h : Dependency.cmp a b = .gt
  · right
    rw [← depCmp_swap a b, h]
    simp [Ordering.swap]
  · left
    exact h

theorem kindIdx_inj : ∀ {a b : DependencyKind}, a.idx = b.idx → a = b := by
  intro a b
  cases a <;> cases b <;> simp [DependencyKind.idx]

theorem depLE_iff {a b : Dependency} :
    depLE a b ↔
      (a.kind.idx < b.kind.idx ∨ (a.kind = b.kind ∧ strCmp a.name b.name ≠ .gt)) := by
  unfold depLE Dependency.cmp kindCmp
  rcases hab : compare a.kind.idx b.kind.idx with _ | _ | _
  · have h := Nat.compare_eq_lt.mp hab
    constructor
    · intro _
      exact Or.inl h
    · intro _
      exact fun hh => Ordering.noConfusion hh
  · have h : a.kind = b.kind := kindIdx_inj (Nat.compare_eq_eq.mp hab)
    constructor
    · intro hr
      exact Or.inr ⟨h, hr⟩
    · intro hr
      rcases hr with hr | hr
      · have h2 := congrArg DependencyKind.idx h
        omega
      · exact hr.2
  · have h := Nat.compare_eq_gt.mp hab
    constructor
    · intro hg
      exact absurd rfl hg
    · intro hr
      rcases hr with hr | hr
      · omega
      · have h2 := congrArg DependencyKind.idx hr.1
        omega

theorem depLE_trans {a b c : Dependency} (h1 : depLE a b) (h2 : depLE b c) :
    depLE a c := by
  rw [depLE_iff] at h1 h2 ⊢
  rcases h1 with h1 | ⟨h1e, h1r⟩
  · rcases h2 with h2 | ⟨h2e, h2r⟩
    · exact Or.inl (Nat.lt_trans h1 h2)
    · exact Or.inl (congrArg DependencyKind.idx h2e ▸ h1)
  · rcases h2 with h2 | ⟨h2e, h2r⟩
    · exact Or.inl (congrArg DependencyKind.idx h1e ▸ h2)
    · exact Or.inr ⟨h1e.trans h2e, strCmp_le_trans h1r h2r⟩

/-- C3: the claim asserts the final merged list is deterministic; but on a
workspace whose two members both have the same outdated dependency (equal
kind and name), the two possible `HashMap` iteration orders of the member map
produce different final lists: the stable sort keeps tied records in join
order. -/
theorem spec_C3_counterexample :
    (retrieveOutdatedDependencies demoOracle demoRootAB Option.none).dependencies ≠
      (retrieveOutdatedDependencies demoOracle demoRootBA Option.none).dependencies := by
  decide

/-- C3 (amended): the final merged list is always sorted by section kind in
the order Normal, Dev, Build, Workspace and within equal kinds by name
(`depLE` characterized in the second conjunct); it is deterministic only up
to the relative order of records sharing both kind and name, which follows
the unspecified member-map iteration order. -/
theorem spec_C3_sorted :
    ∀ (oracle : FetchOracle) (cd : CargoDeps) (wp : Option String),
      List.Sorted depLE (retrieveOutdatedDependencies oracle cd wp).dependencies ∧
      ∀ a b : Dependency, depLE a b ↔
        (a.kind.idx < b.kind.idx ∨ (a.kind = b.kind ∧ strCmp a.name b.name ≠ .gt)) := by
  intro oracle cd wp
  constructor
  · cases cd with
    | mk toml pkg deps members =>
      haveI : IsTotal Dependency depLE := ⟨depLE_total⟩
      haveI : IsTrans Dependency depLE := ⟨fun _ _ _ => depLE_trans⟩
      exact List.sorted_insertionSort depLE _
  · intro a b
    exact depLE_iff

/-- C1: the claim says outdatedness is decided by the requirement as written
in the manifest, independent of the locked version. Counterexample: the
manifest writes `a = ">=1.0.0"`, the lockfile holds `a 1.0.0`, the registry's
latest is `9.0.0`. The written requirement admits `9.0.0`, so by the claim
the dependency is not outdated — yet the resolver emits an outdated record,
because it parses the *locked* version `1.0.0` as a (caret) requirement and
`^1.0.0` rejects `9.0.0`. -/
theorem spec_C1_counterexample :
    extractDependenciesFromSections (some demoC1Section) .normal demoC1Lock =
        .ok [demoC1Dep] ∧
    (VersionReq.parse ">=1.0.0").map (fun r => r.matches ⟨9, 0, 0⟩) = some true ∧
    Version.parse "9.0.0" = some ⟨9, 0, 0⟩ ∧
    getLatestVersionWrapper demoC1Dep demoFetch9 (some "root") Option.none =
      .ok (some { name := "a", current_version := "1.0.0", latest_version := "9.0.0",
                  repository := Option.none, description := Option.none,
                  latest_version_date := Option.none, current_version_date := Option.none,
                  kind := .normal, package_name := some "root",
                  workspace_path := Option.none }) :=
  ⟨rfl, by decide, by decide, rfl⟩

/-- C1 (amended): the resolver emits "not outdated" exactly when the *locked*
version, parsed as a requirement (so with default caret semantics), admits
the registry's latest version; the requirement as written in the manifest
does not enter this comparison (it is used only for lockfile resolution
during extraction). -/
theorem spec_C1_locked_requirement :
    ∀ (dep : CargoDependency) (fetch : FetchOutcome) (wm wp : Option String)
      (req : VersionReq) (resp : CratesIoResponse) (latest : Version),
      VersionReq.parse dep.version = some req →
      getLatestVersion fetch dep.version = .ok (some resp) →
      Version.parse resp.latest_version = some latest →
      ((getLatestVersionWrapper dep fetch wm wp = .ok Option.none) ↔
        req.matches latest = true) := by
  intro dep fetch wm wp req resp latest h1 h2 h3
  unfold getLatestVersionWrapper
  simp only [h1, h2, h3]
  by_cases hm : req.matches latest
  · simp [hm]
  · simp [hm]

/-- Witness for the amended C1 theorem at the concrete scenario above. -/
theorem spec_C1_locked_requirement_witness :
    (getLatestVersionWrapper demoC1Dep demoFetch9 (some "root") Option.none =
        .ok Option.none) ↔
      (VersionReq.mk [⟨Op.caret, 1, some 0, some 0⟩]).matches ⟨9, 0, 0⟩ = true :=
  spec_C1_locked_requirement demoC1Dep demoFetch9 (some "root") Option.none
    (VersionReq.mk [⟨Op.caret, 1, some 0, some 0⟩])
    { repository := Option.none, description := Option.none, latest_version := "9.0.0",
      latest_version_date := Option.none, current_version_date := Option.none }
    ⟨9, 0, 0⟩ (by decide) (by decide) (by decide)

/-- C4: the claim says a missing latest-stable-version field is a fatal error
for that dependency. Counterexample: with a body whose `crate` object has no
`max_stable_version`, the metadata extraction yields no snapshot and the
resolver returns `.ok none` — the dependency is silently treated as up to
date, not a fatal (`.error`) outcome. -/
theorem spec_C4_counterexample :
    CratesIoResponse.fromValue demoNoLatestJson "1.0.0" = Option.none ∧
    getLatestVersionWrapper ⟨"a", "1.0.0", Option.none, .normal⟩
      (.response (.json demoNoLatestJson)) Option.none Option.none = .ok Option.none :=
  ⟨rfl, rfl⟩

/-- C4 (amended): an empty response body is parsed as the empty JSON object
rather than an error (conjunct 1); metadata extraction succeeds exactly when
the latest-stable-version field is present, regardless of the other fields,
and each other field degrades individually to its own optional lookup
(conjunct 2); and when extraction yields no snapshot — in particular on a
missing latest-stable-version field — the resolver silently reports the
dependency as up to date instead of failing (conjunct 3). -/
theorem spec_C4_degrade :
    (∀ v : String, getLatestVersion (.response .empty) v =
        .ok (CratesIoResponse.fromValue (Json.obj []) v)) ∧
    (∀ (value : Json) (version : String),
      ((CratesIoResponse.fromValue value version).isSome ↔
        (getStringFromValue ((value.get "crate").bind Json.asObject)
          "max_stable_version").isSome) ∧
      ∀ resp, CratesIoResponse.fromValue value version = some resp →
        resp.repository =
          getStringFromValue ((value.get "crate").bind Json.asObject) "repository" ∧
        resp.description =
          getStringFromValue ((value.get "crate").bind Json.asObject) "description" ∧
        resp.latest_version_date =
          getFieldFromVersions ((value.get "versions").bind Json.asArray)
            resp.latest_version "updated_at" ∧
        resp.current_version_date =
          getFieldFromVersions ((value.get "versions").bind Json.asArray)
            version "updated_at") ∧
    (∀ (dep : CargoDependency) (j : Json) (wm wp : Option String),
      CratesIoResponse.fromValue j dep.version = Option.none →
      getLatestVersionWrapper dep (.response (.json j)) wm wp = .ok Option.none) := by
  refine ⟨fun v => rfl, fun value version => ?_, fun dep j wm wp h => ?_⟩
  · have he : CratesIoResponse.fromValue value version =
        (match getStringFromValue ((value.get "crate").bind Json.asObject)
            "max_stable_version" with
         | Option.none => Option.none
         | some lv =>
           some { repository :=
                    getStringFromValue ((value.get "crate").bind Json.asObject) "repository"
                  description :=
                    getStringFromValue ((value.get "crate").bind Json.asObject) "description"
                  latest_version := lv
                  latest_version_date :=
                    getFieldFromVersions ((value.get "versions").bind Json.asArray)
                      lv "updated_at"
                  current_version_date :=
                    getFieldFromVersions ((value.get "versions").bind Json.asArray)
                      version "updated_at" }) := rfl
    rw [he]
    rcases hl : getStringFromValue ((value.get "crate").bind Json.asObject)
        "max_stable_version" with _ | lv
    · constructor
      · simp
      · intro resp hr
        simp at hr
    · constructor
      · simp
      · intro resp hr
        simp only [Option.some.injEq] at hr
        subst hr
        simp
  · unfold getLatestVersionWrapper
    rcases hp : VersionReq.parse dep.version with _ | req
    · rfl
    · unfold getLatestVersion
      simp only [h]

/-- Witness for the amended C4 theorem: conjunct 2 at the no-latest body and
conjunct 3 at the concrete dependency of the counterexample scenario. -/
theorem spec_C4_degrade_witness :
    ((CratesIoResponse.fromValue demoNoLatestJson "1.0.0").isSome ↔
      (getStringFromValue ((demoNoLatestJson.get "crate").bind Json.asObject)
        "max_stable_version").isSome) ∧
    getLatestVersionWrapper ⟨"b", "1.0.0", Option.none, .dev⟩
      (.response (.json demoNoLatestJson)) (some "m") (some "p") = .ok Option.none :=
  ⟨(spec_C4_degrade.2.1 demoNoLatestJson "1.0.0").1,
   spec_C4_degrade.2.2 ⟨"b", "1.0.0", Option.none, .dev⟩ demoNoLatestJson
     (some "m") (some "p") (by decide)⟩

/-- C8: the claim says an unparsable version requirement in the resolver is a
fatal, non-recoverable failure. Counterexample: with the unparsable locked
version `garbage`, the resolver returns `.ok none` — the dependency is
silently skipped, and no fetch is even attempted (here the transport would
panic if contacted, yet no error surfaces). -/
theorem spec_C8_counterexample :
    getLatestVersionWrapper ⟨"a", "garbage", Option.none, .normal⟩ .netFail
      Option.none Option.none = .ok Option.none := rfl

/-- C8 (amended): in the resolver, an unparsable requirement (the locked
version string) silently yields "not outdated" (conjunct 1), while an
unparsable latest version from the registry panics (conjunct 2); an
unparsable requirement *as written in the manifest* is instead fatal during
extraction (conjunct 3). -/
theorem spec_C8_parse_failures :
    (∀ (dep : CargoDependency) (fetch : FetchOutcome) (wm wp : Option String),
      VersionReq.parse dep.version = Option.none →
      getLatestVersionWrapper dep fetch wm wp = .ok Option.none) ∧
    (∀ (dep : CargoDependency) (fetch : FetchOutcome) (wm wp : Option String)
      (req : VersionReq) (resp : CratesIoResponse),
      VersionReq.parse dep.version = some req →
      getLatestVersion fetch dep.version = .ok (some resp) →
      Version.parse resp.latest_version = Option.none →
      getLatestVersionWrapper dep fetch wm wp =
        .error ("Latest version is not a valid semver for " ++ dep.name)) ∧
    (∀ (lockfile : Lockfile) (kind : DependencyKind) (name s : String),
      VersionReq.parse s = Option.none →
      extractEntry lockfile kind name (.str s) =
        .error "must be a valid version requirement") := by
  refine ⟨fun dep fetch wm wp h => ?_, fun dep fetch wm wp req resp h1 h2 h3 => ?_,
    fun lockfile kind name s h => ?_⟩
  · unfold getLatestVersionWrapper
    simp only [h]
  · unfold getLatestVersionWrapper
    simp only [h1, h2, h3]
  · unfold extractEntry
    simp only [h]

/-- Witness for the amended C8 theorem: all three conjuncts at concrete
inputs (unparsable locked version; unparsable registry version; unparsable
written requirement). -/
theorem spec_C8_parse_failures_witness :
    getLatestVersionWrapper ⟨"a", "garbage", Option.none, .normal⟩
      (.response .empty) Option.none Option.none = .ok Option.none ∧
    getLatestVersionWrapper ⟨"a", "1.0.0", Option.none, .normal⟩
      (.response (.json (Json.obj [("crate",
        Json.obj [("max_stable_version", Json.str "not-semver")])])))
      Option.none Option.none =
      .error ("Latest version is not a valid semver for " ++ "a") ∧
    extractEntry [] .normal "a" (.str "oops") =
      .error "must be a valid version requirement" :=
  ⟨spec_C8_parse_failures.1 ⟨"a", "garbage", Option.none, .normal⟩
      (.response .empty) Option.none Option.none (by decide),
   spec_C8_parse_failures.2.1 ⟨"a", "1.0.0", Option.none, .normal⟩
      (.response (.json (Json.obj [("crate",
        Json.obj [("max_stable_version", Json.str "not-semver")])])))
      Option.none Option.none (VersionReq.mk [⟨Op.caret, 1, some 0, some 0⟩])
      { repository := Option.none, description := Option.none,
        latest_version := "not-semver", latest_version_date := Option.none,
        current_version_date := Option.none }
      (by decide) (by decide) (by decide),
   spec_C8_parse_failures.2.2 [] .normal "a" "oops" (by decide)⟩

/-- C9: the claim says a missing manifest is a fatal configuration error that
aborts the run. Counterexample: with every manifest read failing (and a
readable lockfile), the run succeeds — `read_cargo_file` replaces the failed
read by the empty string, which parses to the empty document, so the pipeline
completes with zero dependencies instead of aborting. -/
theorem spec_C9_counterexample :
    runPipeline parseEmptyOnly fsAllMissing [some []] demoOracle =
      ([], .ok (Dependencies.mk [] [(".", ⟨[], ""⟩)])) := rfl

/-- C9 (amended): an *unparsable* manifest and a missing or unparsable
lockfile are fatal before any network activity (the fetch log of the run is
empty, conjuncts 1 and 2), but a *missing* manifest is not fatal: the failed
read degrades to the empty string handed to the parser (conjunct 3). -/
theorem spec_C9_config_errors :
    (∀ (parse : String → Option TomlDoc) (fs : String → FsResult)
      (lockAttempts : List (Option Lockfile)) (oracle : FetchOracle)
      (lf : Lockfile) (msg : String),
      readCargoLockFile lockAttempts = .ok lf →
      readCargoFile parse (fs ".") = .error msg →
      runPipeline parse fs lockAttempts oracle = ([], .error msg)) ∧
    (∀ (parse : String → Option TomlDoc) (fs : String → FsResult)
      (lockAttempts : List (Option Lockfile)) (oracle : FetchOracle) (msg : String),
      readCargoLockFile lockAttempts = .error msg →
      runPipeline parse fs lockAttempts oracle = ([], .error msg)) ∧
    (∀ (parse : String → Option TomlDoc) (msg : String),
      readCargoFile parse (.ioError msg) = readCargoFile parse (.ok "")) := by
  refine ⟨fun parse fs lockAttempts oracle lf msg h1 h2 => ?_,
    fun parse fs lockAttempts oracle msg h1 => ?_, fun parse msg => rfl⟩
  · unfold runPipeline gatherDependencies gatherRoot
    simp only [h1, h2, bind, Except.bind]
  · unfold runPipeline gatherDependencies
    simp only [h1, bind, Except.bind]

/-- Witness for the amended C9 theorem: conjunct 1 with an unparsable
manifest text, conjunct 2 with an exhausted lockfile search. -/
theorem spec_C9_config_errors_witness :
    runPipeline parseEmptyOnly (fun _ => .ok "not toml") [some []] demoOracle =
      ([], .error "Unable to parse Cargo.toml file as TOML") ∧
    runPipeline parseEmptyOnly fsAllMissing [] demoOracle =
      ([], .error "Unable to read Cargo.lock file") :=
  ⟨spec_C9_config_errors.1 parseEmptyOnly (fun _ => .ok "not toml") [some []]
      demoOracle [] "Unable to parse Cargo.toml file as TOML" rfl rfl,
   spec_C9_config_errors.2.1 parseEmptyOnly fsAllMissing [] demoOracle
      "Unable to read Cargo.lock file" rfl⟩

theorem hasKey_append_left {l1 l2 : List (String × TomlDoc)} {k : String}
    (h : hasKey l1 k = true) : hasKey (l1 ++ l2) k = true := by
  unfold hasKey at *
  rw [List.any_append, h]
  rfl

theorem hasKey_append_right {l1 l2 : List (String × TomlDoc)} {k : String}
    (h : hasKey l2 k = true) : hasKey (l1 ++ l2) k = true := by
  unfold hasKey at *
  rw [List.any_append, h]
  simp

theorem hasKey_cons_of_tail {x : String × TomlDoc} {l : List (String × TomlDoc)}
    {k : String} (h : hasKey l k = true) : hasKey (x :: l) k = true := by
  unfold hasKey at *
  simp [h]

/-- Any outdated record produced by the wrapper carries exactly the
workspace path and member name that were passed in. -/
theorem wrapper_fields (dep : CargoDependency) (fetch : FetchOutcome)
    (wm wp : Option String) (d : Dependency)
    (h : getLatestVersionWrapper dep fetch wm wp = .ok (some d)) :
    d.workspace_path = wp ∧ d.package_name = wm := by
  unfold getLatestVersionWrapper at h
  rcases hv : VersionReq.parse dep.version with _ | req <;> simp only [hv] at h
  · simp at h
  · rcases hg : getLatestVersion fetch dep.version with e | r <;> simp only [hg] at h
    · simp at h
    · rcases r with _ | resp
      · simp at h
      · rcases hp : Version.parse resp.latest_version with _ | latest <;>
          simp only [hp] at h
        · simp at h
        · rcases hm : req.matches latest with _ | _ <;> rw [hm] at h
          · rw [if_pos (show (!false) = true from rfl)] at h
            injection h with h1
            injection h1 with h2
            rw [← h2]
            exact ⟨rfl, rfl⟩
          · rw [if_neg (show ¬((!true) = true) from by simp)] at h
            simp at h

/-- A key present in one member result's map is present in the flattened
maps of the whole member list. -/
theorem hasKey_flatMap_of_mem (oracle : FetchOracle) (ml : MemberList)
    (r : Dependencies) (hr : r ∈ retrieveMembers oracle ml) (k : String)
    (h : hasKey r.cargo_toml_files k = true) :
    hasKey ((retrieveMembers oracle ml).flatMap (fun x => x.cargo_toml_files)) k = true := by
  unfold hasKey at *
  rw [List.any_eq_true] at h ⊢
  obtain ⟨e, he, hek⟩ := h
  exact ⟨e, List.mem_flatMap.mpr ⟨r, hr, he⟩, hek⟩

/-! The C10 invariant over the workspace tree, by mutual structural
induction: every record's owning path is a key of the accompanying document
map. -/
mutual
theorem retrieveInvOne (oracle : FetchOracle) (cd : CargoDeps) (wp : Option String) :
    ∀ d ∈ (retrieveOutdatedDependencies oracle cd wp).dependencies,
      hasKey (retrieveOutdatedDependencies oracle cd wp).cargo_toml_files
        (d.workspace_path.getD ".") = true := by
  cases cd with
  | mk toml pkg deps members =>
    intro d hd
    have hd2 : d ∈
        (deps.filterMap (fun dp =>
          match getLatestVersionWrapper dp (oracle wp dp) (some pkg) wp with
          | .error _ => Option.none
          | .ok r => r)) ++
        (retrieveMembers oracle members).flatMap (fun r => r.dependencies) :=
      (List.Perm.mem_iff (List.perm_insertionSort depLE _)).mp hd
    rcases List.mem_append.mp hd2 with hdir | hmem
    · obtain ⟨dp, _, hdp⟩ := List.mem_filterMap.mp hdir
      have hw : getLatestVersionWrapper dp (oracle wp dp) (some pkg) wp = .ok (some d) := by
        rcases hr : getLatestVersionWrapper dp (oracle wp dp) (some pkg) wp with e | r
        · rw [hr] at hdp
          simp at hdp
        · rw [hr] at hdp
          simp at hdp
          rw [hdp]
      have hpath := (wrapper_fields dp (oracle wp dp) (some pkg) wp d hw).1
      show hasKey ((wp.getD ".", toml) :: _) (d.workspace_path.getD ".") = true
      rw [hpath]
      unfold hasKey
      simp
    · obtain ⟨r, hr, hdr⟩ := List.mem_flatMap.mp hmem
      have := retrieveInvMany oracle members r hr d hdr
      exact hasKey_cons_of_tail (hasKey_flatMap_of_mem oracle members r hr _ this)

theorem retrieveInvMany (oracle : FetchOracle) (ml : MemberList) :
    ∀ r ∈ retrieveMembers oracle ml, ∀ d ∈ r.dependencies,
      hasKey r.cargo_toml_files (d.workspace_path.getD ".") = true := by
  cases ml with
  | nil =>
    intro r hr
    simp [retrieveMembers] at hr
  | cons path member rest =>
    intro r hr d hd
    rcases List.mem_cons.mp hr with heq | htail
    · subst heq
      exact retrieveInvOne oracle member (some path) d hd
    · exact retrieveInvMany oracle rest r htail d hd
end

/-- Filtering by a selection preserves the path invariant. -/
theorem filter_preserves_invariant (dd : Dependencies) (selected : List Bool)
    (hinv : ∀ d ∈ dd.dependencies,
      hasKey dd.cargo_toml_files (d.workspace_path.getD ".") = true) :
    ∀ d ∈ (filterSelectedDependencies dd selected).dependencies,
      hasKey (filterSelectedDependencies dd selected).cargo_toml_files
        (d.workspace_path.getD ".") = true := by
  intro d hd
  unfold filterSelectedDependencies at hd ⊢
  simp only [] at hd ⊢
  obtain ⟨pair, hpair, hfst⟩ := List.mem_map.mp hd
  have hzip : pair ∈ dd.dependencies.zip selected := (List.mem_filter.mp hpair).1
  have hmem : d ∈ dd.dependencies := hfst ▸ (List.of_mem_zip hzip).1
  have hk := hinv d hmem
  unfold hasKey at hk ⊢
  rw [List.any_eq_true] at hk ⊢
  obtain ⟨e, he, hek⟩ := hk
  refine ⟨e, List.mem_filter.mpr ⟨he, ?_⟩, hek⟩
  have hkey : e.1 = d.workspace_path.getD "." := by simpa using hek
  have hin : d.workspace_path.getD "." ∈
      (((dd.dependencies.zip selected).filter (fun x => x.2)).map (fun x => x.1)).map
        (fun dep => dep.workspace_path.getD ".") :=
    List.mem_map.mpr ⟨d, hd, rfl⟩
  rw [hkey]
  simpa using hin

/-- C10: every outdated record's workspace-member path is a key of the
accompanying document map, both in the result of the concurrent resolution
pass (for any transport oracle, workspace and starting path) and after
filtering by any selection vector. -/
theorem spec_C10_path_invariant :
    ∀ (oracle : FetchOracle) (cd : CargoDeps) (wp : Option String),
      (∀ d ∈ (retrieveOutdatedDependencies oracle cd wp).dependencies,
        hasKey (retrieveOutdatedDependencies oracle cd wp).cargo_toml_files
          (d.workspace_path.getD ".") = true) ∧
      ∀ (selected : List Bool),
        ∀ d ∈ (filterSelectedDependencies
            (retrieveOutdatedDependencies oracle cd wp) selected).dependencies,
          hasKey (filterSelectedDependencies
              (retrieveOutdatedDependencies oracle cd wp) selected).cargo_toml_files
            (d.workspace_path.getD ".") = true := by
  intro oracle cd wp
  refine ⟨retrieveInvOne oracle cd wp, fun selected => ?_⟩
  exact filter_preserves_invariant _ selected (retrieveInvOne oracle cd wp)

/-- Witness for C10 at the two-member demo workspace: the record coming from
member `a` has its path in the map, before and after selecting only it. -/
theorem spec_C10_path_invariant_witness :
    hasKey (retrieveOutdatedDependencies demoOracle demoRootAB Option.none).cargo_toml_files
      (demoRecordA.workspace_path.getD ".") = true ∧
    hasKey (filterSelectedDependencies
        (retrieveOutdatedDependencies demoOracle demoRootAB Option.none)
        [true, false]).cargo_toml_files
      (demoRecordA.workspace_path.getD ".") = true :=
  ⟨(spec_C10_path_invariant demoOracle demoRootAB Option.none).1 demoRecordA (by decide),
   (spec_C10_path_invariant demoOracle demoRootAB Option.none).2 [true, false]
     demoRecordA (by decide)⟩

theorem entriesGet_cons (pre key : String) (it : TomlItem) (rest : List TomlEntry)
    (k : String) :
    entriesGet ((pre, key, it) :: rest) k =
      if key == k then some it else entriesGet rest k := by
  unfold entriesGet entryKey entryItem
  simp only [List.find?]
  by_cases h : key == k <;> simp [h]

theorem setEntry_cons (pre key : String) (it : TomlItem) (rest : List TomlEntry)
    (k : String) (ni : TomlItem) :
    setEntry ((pre, key, it) :: rest) k ni =
      if key == k then (pre, key, ni) :: rest
      else (pre, key, it) :: setEntry rest k ni := rfl

theorem skeleton_cons (pre key : String) (it : TomlItem) (rest : List TomlEntry) :
    skeleton ((pre, key, it) :: rest) = (pre, key) :: skeleton rest := rfl

theorem setEntry_get_self (es : List TomlEntry) (k : String) (ni : TomlItem) :
    entriesGet (setEntry es k ni) k = some ni := by
  induction es with
  | nil => simp [setEntry, entriesGet_cons]
  | cons e rest ih =>
    obtain ⟨pre, key, it⟩ := e
    rw [setEntry_cons]
    by_cases h : key == k
    · rw [if_pos h, entriesGet_cons, if_pos h]
    · rw [if_neg h, entriesGet_cons, if_neg h]
      exact ih

theorem setEntry_get_other (es : List TomlEntry) (k k' : String) (ni : TomlItem)
    (hk : k' ≠ k) : entriesGet (setEntry es k ni) k' = entriesGet es k' := by
  have hkk : (k == k') = false := by
    simp
    exact fun hc => hk hc.symm
  induction es with
  | nil =>
    rw [show setEntry [] k ni = [("", k, ni)] from rfl, entriesGet_cons, hkk]
    simp
  | cons e rest ih =>
    obtain ⟨pre, key, it⟩ := e
    rw [setEntry_cons]
    by_cases h : key == k
    · have hkey : key = k := by simpa using h
      rw [if_pos h, entriesGet_cons, entriesGet_cons]
      subst hkey
      rw [hkk]
      simp
    · rw [if_neg h, entriesGet_cons, entriesGet_cons]
      by_cases h2 : key == k'
      · rw [if_pos h2, if_pos h2]
      · rw [if_neg h2, if_neg h2]
        exact ih

theorem setEntry_skeleton_take (es : List TomlEntry) (k : String) (ni : TomlItem) :
    (skeleton (setEntry es k ni)).take es.length = skeleton es := by
  induction es with
  | nil => simp [skeleton]
  | cons e rest ih =>
    obtain ⟨pre, key, it⟩ := e
    rw [setEntry_cons]
    by_cases h : key == k
    · rw [if_pos h, skeleton_cons, skeleton_cons]
      simp only [List.length_cons, List.take_succ_cons]
      have hlen : (skeleton rest).length = rest.length := by simp [skeleton]
      rw [← hlen, List.take_length]
    · rw [if_neg h, skeleton_cons, skeleton_cons]
      simp only [List.length_cons, List.take_succ_cons]
      rw [ih]

theorem mapEntry_cons (pre key : String) (it : TomlItem) (rest : List TomlEntry)
    (k : String) (f : TomlItem → TomlItem) :
    mapEntry ((pre, key, it) :: rest) k f =
      (if key == k then (pre, key, f it) else (pre, key, it)) :: mapEntry rest k f := by
  unfold mapEntry
  simp only [List.map_cons]
  by_cases h : key == k
  · rw [if_pos (show (entryKey (pre, key, it) == k) = true from h), if_pos h]
    rfl
  · rw [if_neg (show ¬(entryKey (pre, key, it) == k) = true from h), if_neg h]

theorem mapEntry_skeleton (es : List TomlEntry) (k : String) (f : TomlItem → TomlItem) :
    skeleton (mapEntry es k f) = skeleton es := by
  induction es with
  | nil => rfl
  | cons e rest ih =>
    obtain ⟨pre, key, it⟩ := e
    rw [mapEntry_cons]
    by_cases h : key == k
    · rw [if_pos h, skeleton_cons, skeleton_cons, ih]
    · rw [if_neg h, skeleton_cons, skeleton_cons, ih]

theorem mapEntry_get_self (es : List TomlEntry) (k : String) (f : TomlItem → TomlItem) :
    entriesGet (mapEntry es k f) k = (entriesGet es k).map f := by
  induction es with
  | nil => rfl
  | cons e rest ih =>
    obtain ⟨pre, key, it⟩ := e
    rw [mapEntry_cons]
    by_cases h : key == k
    · rw [if_pos h, entriesGet_cons, entriesGet_cons, if_pos h, if_pos h]
      rfl
    · rw [if_neg h, entriesGet_cons, entriesGet_cons, if_neg h, if_neg h]
      exact ih

theorem mapEntry_get_other (es : List TomlEntry) (k k' : String) (f : TomlItem → TomlItem)
    (hk : k' ≠ k) : entriesGet (mapEntry es k f) k' = entriesGet es k' := by
  induction es with
  | nil => rfl
  | cons e rest ih =>
    obtain ⟨pre, key, it⟩ := e
    rw [mapEntry_cons]
    by_cases h : key == k
    · have hkey : key = k := by simpa using h
      have hne : (key == k') = false := by
        simp [hkey]
        exact fun hc => hk hc.symm
      rw [if_pos h, entriesGet_cons, entriesGet_cons, hne]
      simp
      exact ih
    · rw [if_neg h, entriesGet_cons, entriesGet_cons]
      by_cases h2 : key == k'
      · rw [if_pos h2, if_pos h2]
      · rw [if_neg h2, if_neg h2]
        exact ih

theorem updateDepEntry_cons (pre key : String) (it : TomlItem) (rest : List TomlEntry)
    (name : String) (ni : TomlItem) :
    updateDepEntry ((pre, key, it) :: rest) name ni =
      if key == name then
        (match it with
         | .str _ => .ok ((pre, key, ni) :: rest)
         | .table es => .ok ((pre, key, .table (setEntry es "version" ni)) :: rest)
         | .inlineTable es =>
           .ok ((pre, key, .inlineTable (setEntry es "version" ni)) :: rest)
         | _ => .error "cannot index into a non-table dependency entry")
      else (updateDepEntry rest name ni).map (fun r => (pre, key, it) :: r) := rfl

theorem updateDepEntry_ok_cons_inv {pre key : String} {it : TomlItem}
    {rest : List TomlEntry} {name : String} {ni : TomlItem} {es2 : List TomlEntry}
    (hne : (key == name) = false)
    (h : updateDepEntry ((pre, key, it) :: rest) name ni = .ok es2) :
    ∃ r2, updateDepEntry rest name ni = .ok r2 ∧ es2 = (pre, key, it) :: r2 := by
  rw [updateDepEntry_cons, if_neg (by simp [hne])] at h
  rcases hr : updateDepEntry rest name ni with er | r2 <;> rw [hr] at h
  · simp [Except.map] at h
  · refine ⟨r2, rfl, ?_⟩
    simp [Except.map] at h
    exact h.symm

theorem updateDepEntry_get_other (es : List TomlEntry) (name k : String)
    (ni : TomlItem) (es2 : List TomlEntry) (hk : k ≠ name)
    (h : updateDepEntry es name ni = .ok es2) :
    entriesGet es2 k = entriesGet es k := by
  induction es generalizing es2 with
  | nil =>
    unfold updateDepEntry at h
    injection h with h1
    rw [← h1, entriesGet_cons]
    have : (name == k) = false := by
      simp
      exact fun hc => hk hc.symm
    rw [this]
    simp
  | cons e rest ih =>
    obtain ⟨pre, key, it⟩ := e
    by_cases hkey : key == name
    · rw [updateDepEntry_cons, if_pos hkey] at h
      have hkk : (key == k) = false := by
        have : key = name := by simpa using hkey
        simp [this]
        exact fun hc => hk hc.symm
      cases it with
      | str s =>
        injection h with h1
        rw [← h1, entriesGet_cons, entriesGet_cons, hkk]
        simp
      | table ts =>
        injection h with h1
        rw [← h1, entriesGet_cons, entriesGet_cons, hkk]
        simp
      | inlineTable ts =>
        injection h with h1
        rw [← h1, entriesGet_cons, entriesGet_cons, hkk]
        simp
      | int n => exact absurd h (by simp)
      | bool b => exact absurd h (by simp)
      | arr xs => exact absurd h (by simp)
      | none => exact absurd h (by simp)
    · obtain ⟨r2, hr2, hes2⟩ :=
        updateDepEntry_ok_cons_inv (by simpa using hkey) h
      subst hes2
      rw [entriesGet_cons, entriesGet_cons]
      by_cases h2 : key == k
      · rw [if_pos h2, if_pos h2]
      · rw [if_neg h2, if_neg h2]
        exact ih r2 hr2

theorem updateDepEntry_skeleton_take (es : List TomlEntry) (name : String)
    (ni : TomlItem) (es2 : List TomlEntry)
    (h : updateDepEntry es name ni = .ok es2) :
    (skeleton es2).take es.length = skeleton es := by
  induction es generalizing es2 with
  | nil =>
    unfold updateDepEntry at h
    injection h with h1
    simp [skeleton]
  | cons e rest ih =>
    obtain ⟨pre, key, it⟩ := e
    by_cases hkey : key == name
    · rw [updateDepEntry_cons, if_pos hkey] at h
      cases it with
      | str s =>
        injection h with h1
        rw [← h1, skeleton_cons, skeleton_cons]
        simp only [List.length_cons, List.take_succ_cons]
        have hlen : (skeleton rest).length = rest.length := by simp [skeleton]
        rw [← hlen, List.take_length]
      | table ts =>
        injection h with h1
        rw [← h1, skeleton_cons, skeleton_cons]
        simp only [List.length_cons, List.take_succ_cons]
        have hlen : (skeleton rest).length = rest.length := by simp [skeleton]
        rw [← hlen, List.take_length]
      | inlineTable ts =>
        injection h with h1
        rw [← h1, skeleton_cons, skeleton_cons]
        simp only [List.length_cons, List.take_succ_cons]
        have hlen : (skeleton rest).length = rest.length := by simp [skeleton]
        rw [← hlen, List.take_length]
      | int n => exact absurd h (by simp)
      | bool b => exact absurd h (by simp)
      | arr xs => exact absurd h (by simp)
      | none => exact absurd h (by simp)
    · obtain ⟨r2, hr2, hes2⟩ :=
        updateDepEntry_ok_cons_inv (by simpa using hkey) h
      subst hes2
      rw [skeleton_cons, skeleton_cons]
      simp only [List.length_cons, List.take_succ_cons]
      rw [ih r2 hr2]

theorem updateDepEntry_get_str (es : List TomlEntry) (name : String) (ni : TomlItem)
    (es2 : List TomlEntry) (s : String)
    (hs : entriesGet es name = some (.str s))
    (h : updateDepEntry es name ni = .ok es2) :
    entriesGet es2 name = some ni := by
  induction es generalizing es2 with
  | nil => simp [entriesGet] at hs
  | cons e rest ih =>
    obtain ⟨pre, key, it⟩ := e
    rw [entriesGet_cons] at hs
    by_cases hkey : key == name
    · rw [if_pos hkey] at hs
      injection hs with hs1
      subst hs1
      rw [updateDepEntry_cons, if_pos hkey] at h
      injection h with h1
      rw [← h1, entriesGet_cons, if_pos hkey]
    · rw [if_neg hkey] at hs
      obtain ⟨r2, hr2, hes2⟩ :=
        updateDepEntry_ok_cons_inv (by simpa using hkey) h
      subst hes2
      rw [entriesGet_cons, if_neg hkey]
      exact ih r2 hs hr2

theorem updateDepEntry_get_table (es : List TomlEntry) (name : String) (ni : TomlItem)
    (es2 : List TomlEntry) (ts : List TomlEntry)
    (hs : entriesGet es name = some (.table ts))
    (h : updateDepEntry es name ni = .ok es2) :
    entriesGet es2 name = some (.table (setEntry ts "version" ni)) := by
  induction es generalizing es2 with
  | nil => simp [entriesGet] at hs
  | cons e rest ih =>
    obtain ⟨pre, key, it⟩ := e
    rw [entriesGet_cons] at hs
    by_cases hkey : key == name
    · rw [if_pos hkey] at hs
      injection hs with hs1
      subst hs1
      rw [updateDepEntry_cons, if_pos hkey] at h
      injection h with h1
      rw [← h1, entriesGet_cons, if_pos hkey]
    · rw [if_neg hkey] at hs
      obtain ⟨r2, hr2, hes2⟩ :=
        updateDepEntry_ok_cons_inv (by simpa using hkey) h
      subst hes2
      rw [entriesGet_cons, if_neg hkey]
      exact ih r2 hs hr2

theorem updateDepEntry_get_inline (es : List TomlEntry) (name : String) (ni : TomlItem)
    (es2 : List TomlEntry) (ts : List TomlEntry)
    (hs : entriesGet es name = some (.inlineTable ts))
    (h : updateDepEntry es name ni = .ok es2) :
    entriesGet es2 name = some (.inlineTable (setEntry ts "version" ni)) := by
  induction es generalizing es2 with
  | nil => simp [entriesGet] at hs
  | cons e rest ih =>
    obtain ⟨pre, key, it⟩ := e
    rw [entriesGet_cons] at hs
    by_cases hkey : key == name
    · rw [if_pos hkey] at hs
      injection hs with hs1
      subst hs1
      rw [updateDepEntry_cons, if_pos hkey] at h
      injection h with h1
      rw [← h1, entriesGet_cons, if_pos hkey]
    · rw [if_neg hkey] at hs
      obtain ⟨r2, hr2, hes2⟩ :=
        updateDepEntry_ok_cons_inv (by simpa using hkey) h
      subst hes2
      rw [entriesGet_cons, if_neg hkey]
      exact ih r2 hs hr2

theorem updateFile_keys (files : List (String × TomlDoc)) (p : String)
    (f : TomlDoc → Except String TomlDoc) (files2 : List (String × TomlDoc))
    (h : updateFile files p f = .ok files2) :
    files2.map (fun x => x.1) = files.map (fun x => x.1) := by
  induction files generalizing files2 with
  | nil => simp [updateFile] at h
  | cons e rest ih =>
    obtain ⟨q, doc⟩ := e
    unfold updateFile at h
    by_cases hq : q == p
    · rw [if_pos hq] at h
      rcases hf : f doc with er | doc2 <;> rw [hf] at h
      · simp [Except.map] at h
      · simp [Except.map] at h
        rw [← h]
        simp
    · rw [if_neg hq] at h
      rcases hr : updateFile rest p f with er | r2 <;> rw [hr] at h
      · simp [Except.map] at h
      · simp [Except.map] at h
        rw [← h]
        simp [ih r2 hr]

theorem updateFile_lookup_other (files : List (String × TomlDoc)) (p p' : String)
    (f : TomlDoc → Except String TomlDoc) (files2 : List (String × TomlDoc))
    (hp : p' ≠ p) (h : updateFile files p f = .ok files2) :
    lookupFile files2 p' = lookupFile files p' := by
  induction files generalizing files2 with
  | nil => simp [updateFile] at h
  | cons e rest ih =>
    obtain ⟨q, doc⟩ := e
    unfold updateFile at h
    by_cases hq : q == p
    · rw [if_pos hq] at h
      rcases hf : f doc with er | doc2 <;> rw [hf] at h
      · simp [Except.map] at h
      · simp [Except.map] at h
        rw [← h]
        have hqp : q = p := by simpa using hq
        have hne : (q == p') = false := by
          simp [hqp]
          exact fun hc => hp hc.symm
        unfold lookupFile
        simp only [List.find?, hne]
    · rw [if_neg hq] at h
      rcases hr : updateFile rest p f with er | r2 <;> rw [hr] at h
      · simp [Except.map] at h
      · simp [Except.map] at h
        rw [← h]
        unfold lookupFile at ih ⊢
        simp only [List.find?]
        by_cases h2 : q == p'
        · rw [h2]
        · rw [show (q == p') = false from by simpa using h2]
          exact ih r2 hr

theorem updateFile_lookup_self (files : List (String × TomlDoc)) (p : String)
    (f : TomlDoc → Except String TomlDoc) (files2 : List (String × TomlDoc))
    (h : updateFile files p f = .ok files2) :
    ∃ doc doc2, lookupFile files p = some doc ∧ f doc = .ok doc2 ∧
      lookupFile files2 p = some doc2 := by
  induction files generalizing files2 with
  | nil => simp [updateFile] at h
  | cons e rest ih =>
    obtain ⟨q, doc⟩ := e
    unfold updateFile at h
    by_cases hq : q == p
    · rw [if_pos hq] at h
      rcases hf : f doc with er | doc2 <;> rw [hf] at h
      · simp [Except.map] at h
      · simp [Except.map] at h
        refine ⟨doc, doc2, ?_, hf, ?_⟩
        · unfold lookupFile
          simp only [List.find?, hq]
          rfl
        · rw [← h]
          unfold lookupFile
          simp only [List.find?, hq]
          rfl
    · rw [if_neg hq] at h
      rcases hr : updateFile rest p f with er | r2 <;> rw [hr] at h
      · simp [Except.map] at h
      · simp [Except.map] at h
        obtain ⟨doc0, doc2, h1, h2, h3⟩ := ih r2 hr
        refine ⟨doc0, doc2, ?_, h2, ?_⟩
        · unfold lookupFile at h1 ⊢
          simp only [List.find?, show (q == p) = false from by simpa using hq]
          exact h1
        · rw [← h]
          unfold lookupFile at h3 ⊢
          simp only [List.find?, show (q == p) = false from by simpa using hq]
          exact h3

theorem withEntries_asTableLike (sec : TomlItem) (es es2 : List TomlEntry)
    (h : sec.asTableLike = some es) :
    (sec.withEntries es2).asTableLike = some es2 := by
  cases sec <;> simp [TomlItem.asTableLike] at h <;>
    simp [TomlItem.withEntries, TomlItem.asTableLike]

theorem applySection_ok (sec : TomlItem) (name : String) (ni : TomlItem)
    (sec2 : TomlItem) (h : applySection sec name ni = .ok sec2) :
    ∃ es es2, sec.asTableLike = some es ∧ updateDepEntry es name ni = .ok es2 ∧
      sec2 = sec.withEntries es2 ∧ sec2.asTableLike = some es2 := by
  unfold applySection at h
  rcases hs : sec.asTableLike with _ | es <;> rw [hs] at h
  · simp at h
  · change Except.map sec.withEntries (updateDepEntry es name ni) = .ok sec2 at h
    rcases hu : updateDepEntry es name ni with er | es2 <;> rw [hu] at h
    · simp [Except.map] at h
    · simp [Except.map] at h
      exact ⟨es, es2, rfl, hu, h.symm, h ▸ withEntries_asTableLike sec es es2 hs⟩

theorem tomlDocGet_eq (d : TomlDoc) (k : String) :
    d.get k = entriesGet d.root k := rfl

theorem tomlGet_table (es : List TomlEntry) (k : String) :
    (TomlItem.table es).get k = entriesGet es k := rfl

theorem applyTopLevel_frame (doc : TomlDoc) (secKey name : String) (ni : TomlItem)
    (doc2 : TomlDoc) (h : applyTopLevel doc secKey name ni = .ok doc2) :
    doc2.trailing = doc.trailing ∧
    skeleton doc2.root = skeleton doc.root ∧
    (∀ k, k ≠ secKey → entriesGet doc2.root k = entriesGet doc.root k) ∧
    ∃ es es2, (doc.get secKey).bind TomlItem.asTableLike = some es ∧
      updateDepEntry es name ni = .ok es2 ∧
      (doc2.get secKey).bind TomlItem.asTableLike = some es2 := by
  unfold applyTopLevel at h
  rcases hsec : doc.get secKey with _ | sec
  · rw [hsec] at h
    exact absurd h (by simp)
  · rw [hsec] at h
    change Except.map _ (applySection sec name ni) = .ok doc2 at h
    rcases happ : applySection sec name ni with er | sec2 <;> rw [happ] at h
    · exact absurd h (by simp [Except.map])
    · simp only [Except.map] at h
      injection h with h1
      obtain ⟨es, es2, hs, hu, hsec2, hsec2t⟩ := applySection_ok sec name ni sec2 happ
      rw [← h1]
      refine ⟨rfl, mapEntry_skeleton doc.root secKey (fun _ => sec2), ?_, es, es2, ?_, hu, ?_⟩
      · intro k hk
        show entriesGet (mapEntry doc.root secKey (fun _ => sec2)) k = entriesGet doc.root k
        exact mapEntry_get_other doc.root secKey k _ hk
      · simpa using hs
      · show (entriesGet (mapEntry doc.root secKey (fun _ => sec2)) secKey).bind
            TomlItem.asTableLike = some es2
        rw [mapEntry_get_self doc.root secKey _]
        rw [show entriesGet doc.root secKey = some sec from hsec]
        simpa using hsec2t

theorem applyWorkspace_frame (doc : TomlDoc) (name : String) (ni : TomlItem)
    (doc2 : TomlDoc) (h : applyWorkspace doc name ni = .ok doc2) :
    doc2.trailing = doc.trailing ∧
    skeleton doc2.root = skeleton doc.root ∧
    (∀ k, k ≠ "workspace" → entriesGet doc2.root k = entriesGet doc.root k) ∧
    (∃ es es2, ((doc.get "workspace").bind (fun w => w.get "dependencies")).bind
        TomlItem.asTableLike = some es ∧
      updateDepEntry es name ni = .ok es2 ∧
      ((doc2.get "workspace").bind (fun w => w.get "dependencies")).bind
        TomlItem.asTableLike = some es2) ∧
    (∀ k, k ≠ "dependencies" →
      ((doc2.get "workspace").getD TomlItem.none).get k =
        ((doc.get "workspace").getD TomlItem.none).get k) := by
  unfold applyWorkspace at h
  rcases hws : doc.get "workspace" with _ | ws
  · rw [hws] at h
    exact absurd h (by simp)
  · rw [hws] at h
    change (match ws.get "dependencies" with
      | Option.none => Except.error "missing workspace.dependencies section"
      | some sec =>
        Except.map (fun sec2 =>
          TomlDoc.mk
            (mapEntry doc.root "workspace"
              (fun w => updateInTableLike w "dependencies" (fun _ => sec2)))
            doc.trailing) (applySection sec name ni)) = Except.ok doc2 at h
    rcases hsec : ws.get "dependencies" with _ | sec
    · rw [hsec] at h
      exact absurd h (by simp)
    · rw [hsec] at h
      change Except.map _ (applySection sec name ni) = .ok doc2 at h
      rcases happ : applySection sec name ni with er | sec2 <;> rw [happ] at h
      · exact absurd h (by simp [Except.map])
      · simp only [Except.map] at h
        injection h with h1
        obtain ⟨es, es2, hs, hu, hsec2, hsec2t⟩ := applySection_ok sec name ni sec2 happ
        obtain ⟨wes, hwes⟩ : ∃ wes, ws.asTableLike = some wes := by
          cases ws <;> simp [TomlItem.get, TomlItem.asTableLike] at hsec ⊢
        have hwsget : ∀ k, ws.get k = entriesGet wes k := by
          intro k
          cases ws <;> simp [TomlItem.asTableLike] at hwes <;>
            simp [TomlItem.get, ← hwes]
        have hupd : ∀ k, (updateInTableLike ws "dependencies" (fun _ => sec2)).get k =
            (if k = "dependencies" then
              (entriesGet wes "dependencies").map (fun _ => sec2)
             else entriesGet wes k) := by
          intro k
          by_cases hk : k = "dependencies"
          · subst hk
            rw [if_pos rfl]
            cases ws <;> simp [TomlItem.asTableLike] at hwes <;>
              rw [show updateInTableLike _ "dependencies" (fun _ => sec2) = _ from rfl] <;>
              simp [updateInTableLike, TomlItem.get, ← hwes, mapEntry_get_self]
          · rw [if_neg hk]
            cases ws <;> simp [TomlItem.asTableLike] at hwes <;>
              simp [updateInTableLike, TomlItem.get, ← hwes,
                mapEntry_get_other _ _ _ _ hk]
        rw [← h1]
        have hget2 : entriesGet (TomlDoc.mk (mapEntry doc.root "workspace"
              (fun w => updateInTableLike w "dependencies" (fun _ => sec2)))
              doc.trailing).root "workspace" =
            some (updateInTableLike ws "dependencies" (fun _ => sec2)) := by
          show entriesGet (mapEntry doc.root "workspace"
              (fun w => updateInTableLike w "dependencies" (fun _ => sec2)))
              "workspace" = _
          rw [mapEntry_get_self doc.root "workspace" _]
          rw [show entriesGet doc.root "workspace" = some ws from hws]
          rfl
        refine ⟨rfl,
          mapEntry_skeleton doc.root "workspace"
            (fun w => updateInTableLike w "dependencies" (fun _ => sec2)),
          ?_, ⟨es, es2, ?_, hu, ?_⟩, ?_⟩
        · intro k hk
          show entriesGet (mapEntry doc.root "workspace"
              (fun w => updateInTableLike w "dependencies" (fun _ => sec2))) k =
            entriesGet doc.root k
          exact mapEntry_get_other doc.root "workspace" k _ hk
        · simp only [Option.some_bind]
          rw [hsec]
          simpa using hs
        · rw [tomlDocGet_eq, hget2]
          simp only [Option.some_bind]
          rw [hupd "dependencies", if_pos rfl]
          rw [show entriesGet wes "dependencies" = some sec from (hwsget "dependencies") ▸ hsec]
          simpa using hsec2t
        · intro k hk
          rw [tomlDocGet_eq, hget2]
          simp only [Option.getD_some]
          rw [hupd k, if_neg hk, ← hwsget k]

theorem applyToDoc_frame (doc : TomlDoc) (kind : DependencyKind) (name : String)
    (ni : TomlItem) (doc2 : TomlDoc) (h : applyToDoc doc kind name ni = .ok doc2) :
    doc2.trailing = doc.trailing ∧
    skeleton doc2.root = skeleton doc.root ∧
    (∀ k, k ≠ rootKeyOf kind → entriesGet doc2.root k = entriesGet doc.root k) ∧
    (∃ es es2, sectionEntriesOf doc kind = some es ∧
      updateDepEntry es name ni = .ok es2 ∧ sectionEntriesOf doc2 kind = some es2) ∧
    (kind = .workspace → ∀ k, k ≠ "dependencies" →
      ((doc2.get "workspace").getD TomlItem.none).get k =
        ((doc.get "workspace").getD TomlItem.none).get k) := by
  cases kind with
  | workspace =>
    obtain ⟨h1, h2, h3, h4, h5⟩ := applyWorkspace_frame doc name ni doc2 h
    exact ⟨h1, h2, h3, h4, fun _ => h5⟩
  | normal =>
    obtain ⟨h1, h2, h3, h4⟩ := applyTopLevel_frame doc "dependencies" name ni doc2 h
    refine ⟨h1, h2, h3, h4, fun hk => absurd hk (by simp)⟩
  | dev =>
    obtain ⟨h1, h2, h3, h4⟩ := applyTopLevel_frame doc "dev-dependencies" name ni doc2 h
    refine ⟨h1, h2, h3, h4, fun hk => absurd hk (by simp)⟩
  | build =>
    obtain ⟨h1, h2, h3, h4⟩ := applyTopLevel_frame doc "build-dependencies" name ni doc2 h
    refine ⟨h1, h2, h3, h4, fun hk => absurd hk (by simp)⟩

theorem FilesFrame_refl (deps : List Dependency) (files : List (String × TomlDoc)) :
    FilesFrame deps files files := by
  refine ⟨rfl, fun p doc0 doc h0 h1 => ?_⟩
  rw [h0] at h1
  injection h1 with h2
  subst h2
  refine ⟨rfl, rfl, fun _ _ => rfl, fun _ _ _ => rfl, ?_, fun _ _ => rfl⟩
  intro kind es0 es h0 h1
  rw [h0] at h1
  injection h1 with h2
  subst h2
  have hlen : (skeleton es0).length = es0.length := by simp [skeleton]
  rw [← hlen, List.take_length]

theorem rootKeyOf_mem (kind : DependencyKind) : rootKeyOf kind ∈ rootSectionKeys := by
  cases kind <;> simp [rootKeyOf, rootSectionKeys]

theorem rootKeyOf_inj {a b : DependencyKind} (h : rootKeyOf a = rootKeyOf b) : a = b := by
  cases a <;> cases b <;> first | rfl | (exact absurd h (by decide))

theorem sectionOf_congr {docA docB : TomlDoc} (kind : DependencyKind)
    (h : entriesGet docA.root (rootKeyOf kind) = entriesGet docB.root (rootKeyOf kind)) :
    sectionOf docA kind = sectionOf docB kind := by
  cases kind <;> simp only [sectionOf, tomlDocGet_eq, rootKeyOf] at h ⊢ <;> rw [h]

theorem targetsB_false_ne {deps : List Dependency} {p : String}
    {kind : DependencyKind} {name : String} (h : targetsB deps p kind name = false)
    {d : Dependency} (hd : d ∈ deps) (hp : d.workspace_path.getD "." = p)
    (hk : d.kind = kind) : d.name ≠ name := by
  intro hn
  have : targetsB deps p kind name = true :=
    List.any_eq_true.mpr ⟨d, hd, by simp [hp, hk, hn]⟩
  rw [h] at this
  exact Bool.noConfusion this

theorem FilesFrame_step (deps : List Dependency) (files0 files files' : List (String × TomlDoc))
    (d : Dependency) (pin : Bool) (hd : d ∈ deps)
    (hf : FilesFrame deps files0 files)
    (h : applyOneDep files d pin = .ok files') :
    FilesFrame deps files0 files' := by
  unfold applyOneDep at h
  obtain ⟨hkeys, hdocs⟩ := hf
  constructor
  · rw [updateFile_keys files (d.workspace_path.getD ".") _ files' h]
    exact hkeys
  · intro p doc0 doc' h0 h1
    by_cases hp : p = d.workspace_path.getD "."
    case neg =>
      rw [updateFile_lookup_other files (d.workspace_path.getD ".") p _ files' hp h] at h1
      exact hdocs p doc0 doc' h0 h1
    case pos =>
      rw [hp] at h0 h1 ⊢
      obtain ⟨docMid, doc2, hlook, happ, hlook2⟩ :=
        updateFile_lookup_self files (d.workspace_path.getD ".") _ files' h
      rw [hlook2] at h1
      injection h1 with h1e
      subst h1e
      obtain ⟨f1, f2, f3, f4, f5, f6⟩ := hdocs _ doc0 docMid h0 hlook
      obtain ⟨g1, g2, g3, g4, g5⟩ := applyToDoc_frame docMid d.kind d.name _ doc2 happ
      obtain ⟨esA, esB, ha1, ha2, ha3⟩ := g4
      refine ⟨g1.trans f1, g2.trans f2, ?_, ?_, ?_, ?_⟩
      · intro k hk
        have hne : k ≠ rootKeyOf d.kind := fun he => hk (he ▸ rootKeyOf_mem d.kind)
        exact (g3 k hne).trans (f3 k hk)
      · intro kind name ht
        by_cases hkind : kind = d.kind
        · subst hkind
          have hname : name ≠ d.name := by
            have hne := targetsB_false_ne ht hd rfl rfl
            exact fun he => hne he.symm
          have hstep : sectionEntryGet doc2 d.kind name = sectionEntryGet docMid d.kind name := by
            unfold sectionEntryGet
            rw [ha3, ha1]
            simp only [Option.some_bind]
            exact updateDepEntry_get_other esA d.name name _ esB hname ha2
          exact hstep.trans (f4 d.kind name ht)
        · have hne : rootKeyOf kind ≠ rootKeyOf d.kind :=
            fun he => hkind (rootKeyOf_inj he)
          have hsec : sectionOf doc2 kind = sectionOf docMid kind :=
            sectionOf_congr kind (g3 _ hne)
          have hstep : sectionEntryGet doc2 kind name = sectionEntryGet docMid kind name := by
            unfold sectionEntryGet sectionEntriesOf
            rw [hsec]
          exact hstep.trans (f4 kind name ht)
      · intro kind es0 es h00 h22
        by_cases hkind : kind = d.kind
        · subst hkind
          rw [ha3] at h22
          injection h22 with he
          subst he
          have hmid := f5 d.kind es0 esA h00 ha1
          have hstep := updateDepEntry_skeleton_take esA d.name _ esB ha2
          have hle : es0.length ≤ esA.length := by
            have hlen0 : ((skeleton esA).take es0.length).length = es0.length := by
              rw [hmid]
              simp [skeleton]
            simp only [List.length_take] at hlen0
            have : (skeleton esA).length = esA.length := by simp [skeleton]
            omega
          rw [← hmid, ← hstep, List.take_take, Nat.min_eq_left hle]
        · have hne : rootKeyOf kind ≠ rootKeyOf d.kind :=
            fun he => hkind (rootKeyOf_inj he)
          have hsec : sectionOf doc2 kind = sectionOf docMid kind :=
            sectionOf_congr kind (g3 _ hne)
          unfold sectionEntriesOf at h22
          rw [hsec] at h22
          exact f5 kind es0 es h00 h22
      · intro k hk
        by_cases hkind : d.kind = .workspace
        · exact (g5 hkind k hk).trans (f6 k hk)
        · have hne : "workspace" ≠ rootKeyOf d.kind := by
            rcases hk2 : d.kind with _ | _ | _
            · decide
            · decide
            · decide
            · exact absurd hk2 hkind
          have hws : entriesGet doc2.root "workspace" = entriesGet docMid.root "workspace" :=
            g3 _ hne
          rw [tomlDocGet_eq, hws]
          exact f6 k hk

theorem FilesFrame_fold (full : List Dependency) (pin : Bool) :
    ∀ (deps : List Dependency) (files0 files files' : List (String × TomlDoc)),
      (∀ d ∈ deps, d ∈ full) →
      FilesFrame full files0 files →
      deps.foldlM (fun fs d => applyOneDep fs d pin) files = .ok files' →
      FilesFrame full files0 files'
  | [], files0, files, files', _, hf, h => by
    simp only [List.foldlM_nil] at h
    injection h with he
    exact he ▸ hf
  | d :: rest, files0, files, files', hsub, hf, h => by
    simp only [List.foldlM_cons] at h
    rcases hstep : applyOneDep files d pin with er | filesMid <;> rw [hstep] at h
    · exact absurd h (by simp [Except.bind, Bind.bind])
    · have hf2 := FilesFrame_step full files0 files filesMid d pin
        (hsub d (by simp)) hf hstep
      have h2 : rest.foldlM (fun fs d => applyOneDep fs d pin) filesMid = .ok files' := h
      exact FilesFrame_fold full pin rest files0 filesMid files'
        (fun x hx => hsub x (by simp [hx])) hf2 h2

theorem FilesFrame_foldKinds (full : List Dependency) (pin : Bool) :
    ∀ (kinds : List DependencyKind) (files0 files files' : List (String × TomlDoc)),
      FilesFrame full files0 files →
      kinds.foldlM (fun fs k => applyVersionsByKind fs full k pin) files = .ok files' →
      FilesFrame full files0 files'
  | [], files0, files, files', hf, h => by
    simp only [List.foldlM_nil] at h
    injection h with he
    exact he ▸ hf
  | k :: rest, files0, files, files', hf, h => by
    simp only [List.foldlM_cons] at h
    rcases hstep : applyVersionsByKind files full k pin with er | filesMid <;>
      rw [hstep] at h
    · exact absurd h (by simp [Except.bind, Bind.bind])
    · unfold applyVersionsByKind at hstep
      have hf2 := FilesFrame_fold full pin (full.filter (fun d => d.kind == k))
        files0 files filesMid (fun x hx => (List.mem_filter.mp hx).1) hf hstep
      exact FilesFrame_foldKinds full pin rest files0 filesMid files' hf2 h

theorem applyVersions_ok_nonempty (dd : Dependencies) (pin : Bool)
    (files2 writes : List (String × TomlDoc)) (hne : dd.dependencies ≠ [])
    (h : applyVersions dd pin = .ok (files2, writes)) :
    writes = files2 ∧ FilesFrame dd.dependencies dd.cargo_toml_files files2 := by
  unfold applyVersions at h
  rw [if_neg (by simpa using hne)] at h
  rcases hfold : DependencyKind.ordered.foldlM
      (fun fs k => applyVersionsByKind fs dd.dependencies k pin)
      dd.cargo_toml_files with er | filesF <;>
    simp only [bind, Except.bind, hfold] at h
  · exact absurd h (by simp)
  · injection h with hpair
    have hw1 : files2 = filesF := congrArg Prod.fst hpair.symm
    have hw2 : writes = filesF := congrArg Prod.snd hpair.symm
    refine ⟨hw2.trans hw1.symm, ?_⟩
    rw [hw1]
    exact FilesFrame_foldKinds dd.dependencies pin DependencyKind.ordered
      dd.cargo_toml_files dd.cargo_toml_files filesF (FilesFrame_refl _ _) hfold

theorem filterSelected_all_false (dd : Dependencies) (sel : List Bool)
    (hall : sel.all (fun b => !b) = true) :
    (filterSelectedDependencies dd sel).dependencies = [] := by
  unfold filterSelectedDependencies
  simp only []
  have hnil : (dd.dependencies.zip sel).filter (fun x => x.2) = [] := by
    rw [List.filter_eq_nil_iff]
    intro x hx
    have hb := (List.of_mem_zip hx).2
    have hfalse := List.all_eq_true.mp hall x.2 hb
    simp at hfalse
    simp [hfalse]
  rw [hnil]
  rfl

/-- C6: applying an empty selection writes no files and leaves every document
untouched (conjunct 1: the writer short-circuits and returns the map as it
was read, with an empty write list — on this model serialization is injective
on documents, so an untouched document is byte-identical); a non-empty
application writes back exactly the final map, whose documents differ from
the originals only in targeted entries (conjunct 2, the `FilesFrame`
relation: same keys, same trailing trivia, same root skeleton, unrelated
root entries, untargeted section entries and `[workspace]` sub-entries all
unchanged, section skeletons preserved up to appended entries); and every
written path carries at least one selected record (conjunct 3). -/
theorem spec_C6_apply_selection :
    (∀ (dd : Dependencies) (selected : List Bool) (pin : Bool),
      selected.all (fun b => !b) = true →
      applyVersions (filterSelectedDependencies dd selected) pin =
        .ok ((filterSelectedDependencies dd selected).cargo_toml_files, [])) ∧
    (∀ (dd : Dependencies) (pin : Bool) (files2 writes : List (String × TomlDoc)),
      dd.dependencies ≠ [] →
      applyVersions dd pin = .ok (files2, writes) →
      writes = files2 ∧ FilesFrame dd.dependencies dd.cargo_toml_files files2) ∧
    (∀ (dd : Dependencies) (selected : List Bool) (pin : Bool)
      (files2 writes : List (String × TomlDoc)),
      applyVersions (filterSelectedDependencies dd selected) pin = .ok (files2, writes) →
      ∀ p ∈ writes.map (fun f => f.1),
        ∃ d ∈ (filterSelectedDependencies dd selected).dependencies,
          d.workspace_path.getD "." = p) := by
  refine ⟨fun dd sel pin hall => ?_, fun dd pin f2 w hne h =>
    applyVersions_ok_nonempty dd pin f2 w hne h, fun dd sel pin f2 w h p hp => ?_⟩
  · unfold applyVersions
    rw [filterSelected_all_false dd sel hall]
    rfl
  · by_cases hne : (filterSelectedDependencies dd sel).dependencies = []
    · unfold applyVersions at h
      rw [hne] at h
      simp only [List.isEmpty_nil, if_pos] at h
      injection h with hpair
      have hw : w = [] := (congrArg Prod.snd hpair).symm
      rw [hw] at hp
      simp at hp
    · obtain ⟨hw, hframe⟩ := applyVersions_ok_nonempty _ pin f2 w hne h
      rw [hw, hframe.1] at hp
      obtain ⟨f, hf, hfp⟩ := List.mem_map.mp hp
      have hf2 : f ∈ dd.cargo_toml_files.filter (fun f =>
          (((dd.dependencies.zip sel).filter (fun x => x.2)).map (fun x => x.1)).map
            (fun dep => dep.workspace_path.getD ".") |>.contains f.1) := hf
      have hmemf := List.mem_filter.mp hf2
      have hcont := hmemf.2
      have hmem : f.1 ∈ (((dd.dependencies.zip sel).filter (fun x => x.2)).map
          (fun x => x.1)).map (fun dep => dep.workspace_path.getD ".") := by
        simpa using hcont
      obtain ⟨d, hd, hdp⟩ := List.mem_map.mp hmem
      exact ⟨d, hd, hdp.trans hfp⟩

/-- C7: for a selected record, the writer locates the owning document by
workspace path, the section by kind, and the entry by manifest key. A bare
string entry is replaced by the new version string — `=`-prefixed exactly
when pinning is requested — while a nested-table or inline-table entry has
only its `version` field replaced, leaving every other field (in particular
the `package` rename field) untouched; entries under other keys are never
modified. -/
theorem spec_C7_entry_mutation :
    ∀ (files : List (String × TomlDoc)) (dep : Dependency) (pin : Bool)
      (files2 : List (String × TomlDoc)),
      applyOneDep files dep pin = .ok files2 →
      ∃ doc doc2 es es2,
        lookupFile files (dep.workspace_path.getD ".") = some doc ∧
        lookupFile files2 (dep.workspace_path.getD ".") = some doc2 ∧
        sectionEntriesOf doc dep.kind = some es ∧
        sectionEntriesOf doc2 dep.kind = some es2 ∧
        (∀ s, entriesGet es dep.name = some (.str s) →
          entriesGet es2 dep.name =
            some (.str (if pin then "=" ++ dep.latest_version else dep.latest_version))) ∧
        (∀ ts, entriesGet es dep.name = some (.table ts) →
          entriesGet es2 dep.name =
            some (.table (setEntry ts "version" (versionItem pin dep.latest_version))) ∧
          entriesGet (setEntry ts "version" (versionItem pin dep.latest_version)) "version" =
            some (.str (if pin then "=" ++ dep.latest_version else dep.latest_version)) ∧
          (∀ k, k ≠ "version" →
            entriesGet (setEntry ts "version" (versionItem pin dep.latest_version)) k =
              entriesGet ts k)) ∧
        (∀ ts, entriesGet es dep.name = some (.inlineTable ts) →
          entriesGet es2 dep.name =
            some (.inlineTable (setEntry ts "version" (versionItem pin dep.latest_version))) ∧
          entriesGet (setEntry ts "version" (versionItem pin dep.latest_version)) "version" =
            some (.str (if pin then "=" ++ dep.latest_version else dep.latest_version)) ∧
          (∀ k, k ≠ "version" →
            entriesGet (setEntry ts "version" (versionItem pin dep.latest_version)) k =
              entriesGet ts k)) ∧
        (∀ k, k ≠ dep.name → entriesGet es2 k = entriesGet es k) := by
  intro files dep pin files2 h
  unfold applyOneDep at h
  obtain ⟨doc, doc2, hlook, happ, hlook2⟩ :=
    updateFile_lookup_self files (dep.workspace_path.getD ".") _ files2 h
  obtain ⟨_, _, _, ⟨es, es2, he1, he2, he3⟩, _⟩ :=
    applyToDoc_frame doc dep.kind dep.name _ doc2 happ
  refine ⟨doc, doc2, es, es2, hlook, hlook2, he1, he3, ?_, ?_, ?_, ?_⟩
  · intro s hs
    have := updateDepEntry_get_str es dep.name _ es2 s hs he2
    rw [this]
    rfl
  · intro ts hs
    refine ⟨updateDepEntry_get_table es dep.name _ es2 ts hs he2,
      setEntry_get_self ts "version" _, fun k hk => setEntry_get_other ts "version" k _ hk⟩
  · intro ts hs
    refine ⟨updateDepEntry_get_inline es dep.name _ es2 ts hs he2,
      setEntry_get_self ts "version" _, fun k hk => setEntry_get_other ts "version" k _ hk⟩
  · intro k hk
    exact updateDepEntry_get_other es dep.name k _ es2 hk he2

/-- Witness for C6 at the demo data: deselecting everything writes nothing;
selecting the one record rewrites the document to `demoDoc2` and reports it
as the only write, with the frame relation; the write path carries a
selected record. -/
theorem spec_C6_apply_selection_witness :
    applyVersions (filterSelectedDependencies demoDD [false]) false =
      .ok ((filterSelectedDependencies demoDD [false]).cargo_toml_files, []) ∧
    (([(".", demoDoc2)] : List (String × TomlDoc)) = [(".", demoDoc2)] ∧
      FilesFrame demoDD.dependencies demoDD.cargo_toml_files [(".", demoDoc2)]) ∧
    ∃ d ∈ (filterSelectedDependencies demoDD [true]).dependencies,
      d.workspace_path.getD "." = "." :=
  ⟨spec_C6_apply_selection.1 demoDD [false] false (by decide),
   spec_C6_apply_selection.2.1 demoDD false [(".", demoDoc2)] [(".", demoDoc2)]
     (by decide) rfl,
   spec_C6_apply_selection.2.2 demoDD [true] false [(".", demoDoc2)] [(".", demoDoc2)]
     rfl "." (by decide)⟩

/-- Witness for C7 at the demo data: updating the renamed dependency with
pinning requested, once with the entry written as a nested table and once
written as an inline table. -/
theorem spec_C7_entry_mutation_witness :
    (∃ doc doc2 es es2,
      lookupFile [(".", demoDoc)] (demoDep2.workspace_path.getD ".") = some doc ∧
      lookupFile [(".", TomlDoc.mk [("# top comment\n", "dependencies", .table
          [("", "serde", .str "1.0.0"),
           ("# keep\n", "renamed", .table
             [("", "version", .str "=3.0.0"), ("", "package", .str "real-name")])])] "\n")]
        (demoDep2.workspace_path.getD ".") = some doc2 ∧
      sectionEntriesOf doc demoDep2.kind = some es ∧
      sectionEntriesOf doc2 demoDep2.kind = some es2 ∧
      (∀ s, entriesGet es demoDep2.name = some (.str s) →
        entriesGet es2 demoDep2.name =
          some (.str (if true then "=" ++ demoDep2.latest_version
                      else demoDep2.latest_version))) ∧
      (∀ ts, entriesGet es demoDep2.name = some (.table ts) →
        entriesGet es2 demoDep2.name =
          some (.table (setEntry ts "version" (versionItem true demoDep2.latest_version))) ∧
        entriesGet (setEntry ts "version" (versionItem true demoDep2.latest_version))
            "version" =
          some (.str (if true then "=" ++ demoDep2.latest_version
                      else demoDep2.latest_version)) ∧
        (∀ k, k ≠ "version" →
          entriesGet (setEntry ts "version" (versionItem true demoDep2.latest_version)) k =
            entriesGet ts k)) ∧
      (∀ ts, entriesGet es demoDep2.name = some (.inlineTable ts) →
        entriesGet es2 demoDep2.name =
          some (.inlineTable
            (setEntry ts "version" (versionItem true demoDep2.latest_version))) ∧
        entriesGet (setEntry ts "version" (versionItem true demoDep2.latest_version))
            "version" =
          some (.str (if true then "=" ++ demoDep2.latest_version
                      else demoDep2.latest_version)) ∧
        (∀ k, k ≠ "version" →
          entriesGet (setEntry ts "version" (versionItem true demoDep2.latest_version)) k =
            entriesGet ts k)) ∧
      (∀ k, k ≠ demoDep2.name → entriesGet es2 k = entriesGet es k)) ∧
    (∃ doc doc2 es es2,
      lookupFile [(".", demoDocI)] (demoDep2.workspace_path.getD ".") = some doc ∧
      lookupFile [(".", TomlDoc.mk [("# top comment\n", "dependencies", .table
          [("", "serde", .str "1.0.0"),
           ("# keep\n", "renamed", .inlineTable
             [("", "version", .str "=3.0.0"), ("", "package", .str "real-name")])])] "\n")]
        (demoDep2.workspace_path.getD ".") = some doc2 ∧
      sectionEntriesOf doc demoDep2.kind = some es ∧
      sectionEntriesOf doc2 demoDep2.kind = some es2 ∧
      (∀ s, entriesGet es demoDep2.name = some (.str s) →
        entriesGet es2 demoDep2.name =
          some (.str (if true then "=" ++ demoDep2.latest_version
                      else demoDep2.latest_version))) ∧
      (∀ ts, entriesGet es demoDep2.name = some (.table ts) →
        entriesGet es2 demoDep2.name =
          some (.table (setEntry ts "version" (versionItem true demoDep2.latest_version))) ∧
        entriesGet (setEntry ts "version" (versionItem true demoDep2.latest_version))
            "version" =
          some (.str (if true then "=" ++ demoDep2.latest_version
                      else demoDep2.latest_version)) ∧
        (∀ k, k ≠ "version" →
          entriesGet (setEntry ts "version" (versionItem true demoDep2.latest_version)) k =
            entriesGet ts k)) ∧
      (∀ ts, entriesGet es demoDep2.name = some (.inlineTable ts) →
        entriesGet es2 demoDep2.name =
          some (.inlineTable
            (setEntry ts "version" (versionItem true demoDep2.latest_version))) ∧
        entriesGet (setEntry ts "version" (versionItem true demoDep2.latest_version))
            "version" =
          some (.str (if true then "=" ++ demoDep2.latest_version
                      else demoDep2.latest_version)) ∧
        (∀ k, k ≠ "version" →
          entriesGet (setEntry ts "version" (versionItem true demoDep2.latest_version)) k =
            entriesGet ts k)) ∧
      (∀ k, k ≠ demoDep2.name → entriesGet es2 k = entriesGet es k)) :=
  ⟨spec_C7_entry_mutation [(".", demoDoc)] demoDep2 true _ rfl,
   spec_C7_entry_mutation [(".", demoDocI)] demoDep2 true _ rfl⟩

/-! ## Binary-search correctness for `find_matching_package` (C2) -/
theorem strCmp_antisymm {a b : String} (h1 : strCmp a b ≠ .gt)
    (h2 : strCmp b a ≠ .gt) : a = b := by
  have hs := strCmp_swap a b
  cases h : strCmp a b with
  | lt => rw [h] at hs; exact absurd hs.symm h2
  | eq => exact strCmp_eq_eq.mp h
  | gt => exact absurd h h1

theorem strCmp_lt_gt {a b : String} (h : strCmp a b = .lt) : strCmp b a = .gt := by
  have hs := strCmp_swap a b
  rw [h] at hs
  exact hs.symm

theorem bsLoopFuel_succ_true (gt : Nat → Bool) (fuel base size : Nat) (h1 : 1 < size)
    (h2 : gt (base + size / 2) = true) :
    bsLoopFuel gt (fuel + 1) base size = bsLoopFuel gt fuel base (size - size / 2) := by
  rw [bsLoopFuel]
  simp [h1, h2]

theorem bsLoopFuel_succ_false (gt : Nat → Bool) (fuel base size : Nat) (h1 : 1 < size)
    (h2 : gt (base + size / 2) = false) :
    bsLoopFuel gt (fuel + 1) base size =
      bsLoopFuel gt fuel (base + size / 2) (size - size / 2) := by
  rw [bsLoopFuel]
  simp [h1, h2]

theorem bsLoopFuel_stop (gt : Nat → Bool) (fuel base size : Nat) (h1 : ¬ 1 < size) :
    bsLoopFuel gt (fuel + 1) base size = base := by
  rw [bsLoopFuel]
  simp [h1]

theorem bsLoopFuel_bounds (gt : Nat → Bool) :
    ∀ fuel base size, 0 < size →
      base ≤ bsLoopFuel gt fuel base size ∧ bsLoopFuel gt fuel base size < base + size := by
  intro fuel
  induction fuel with
  | zero =>
    intro base size h
    simp only [bsLoopFuel]
    omega
  | succ n ih =>
    intro base size h
    by_cases h1 : 1 < size
    · cases h2 : gt (base + size / 2) with
      | true =>
        rw [bsLoopFuel_succ_true gt n base size h1 h2]
        have := ih base (size - size / 2) (by omega)
        omega
      | false =>
        rw [bsLoopFuel_succ_false gt n base size h1 h2]
        have := ih (base + size / 2) (size - size / 2) (by omega)
        omega
    · rw [bsLoopFuel_stop gt n base size h1]
      omega

theorem bsLoop_lt (gt : Nat → Bool) (size : Nat) (h : 0 < size) :
    bsLoop gt 0 size < size := by
  have := bsLoopFuel_bounds gt size 0 size h
  unfold bsLoop
  omega

/-! The key invariant of the binary-search loop: when the package names are
sorted, a window containing an index whose name equals the key keeps
containing one, so the final probe lands on the key. -/
theorem bsLoopFuel_finds (packages : List Package) (name : String)
    (hsort : ∀ a b, a < b → b < packages.length →
      strCmp (nameAt packages a) (nameAt packages b) ≠ .gt) :
    ∀ fuel base size, size ≤ fuel → 0 < size → base + size ≤ packages.length →
      (∃ e, base ≤ e ∧ e < base + size ∧ strCmp (nameAt packages e) name = .eq) →
      strCmp (nameAt packages
        (bsLoopFuel (fun j => strCmp (nameAt packages j) name == .gt) fuel base size))
        name = .eq := by
  intro fuel
  induction fuel with
  | zero =>
    intro base size hf hs hlen he
    omega
  | succ n ih =>
    intro base size hf hs hlen he
    obtain ⟨e, he1, he2, he3⟩ := he
    have hename : nameAt packages e = name := strCmp_eq_eq.mp he3
    by_cases h1 : 1 < size
    · cases hmid : strCmp (nameAt packages (base + size / 2)) name with
      | gt =>
        rw [bsLoopFuel_succ_true _ n base size h1
          (by show (strCmp (nameAt packages (base + size / 2)) name == Ordering.gt) = true
              rw [hmid]
              rfl)]
        apply ih base (size - size / 2) (by omega) (by omega) (by omega)
        refine ⟨e, he1, ?_, he3⟩
        have hlt : e < base + size / 2 := by
          by_contra hge
          push_neg at hge
          rcases Nat.eq_or_lt_of_le hge with hEq | hLt
          · rw [hEq] at hmid
            rw [he3] at hmid
            exact Ordering.noConfusion hmid
          · have hmono := hsort (base + size / 2) e hLt (by omega)
            rw [hename] at hmono
            exact hmono hmid
        omega
      | lt =>
        rw [bsLoopFuel_succ_false _ n base size h1
          (by show (strCmp (nameAt packages (base + size / 2)) name == Ordering.gt) = false
              rw [hmid]
              rfl)]
        apply ih (base + size / 2) (size - size / 2) (by omega) (by omega) (by omega)
        refine ⟨e, ?_, by omega, he3⟩
        by_contra hge
        push_neg at hge
        have hgt : strCmp name (nameAt packages (base + size / 2)) = .gt := strCmp_lt_gt hmid
        have hmono := hsort e (base + size / 2) hge (by omega)
        rw [hename] at hmono
        exact hmono hgt
      | eq =>
        rw [bsLoopFuel_succ_false _ n base size h1
          (by show (strCmp (nameAt packages (base + size / 2)) name == Ordering.gt) = false
              rw [hmid]
              rfl)]
        exact ih (base + size / 2) (size - size / 2) (by omega) (by omega) (by omega)
          ⟨base + size / 2, Nat.le_refl _, by omega, hmid⟩
    · rw [bsLoopFuel_stop _ n base size h1]
      have heb : e = base := by omega
      rw [← heb]
      exact he3

theorem binarySearchByName_ok (packages : List Package) (name : String) {i : Nat}
    (h : binarySearchByName packages name = .ok i) :
    i < packages.length ∧ nameAt packages i = name := by
  by_cases hlen : packages.length = 0
  · unfold binarySearchByName at h
    rw [if_pos hlen] at h
    exact Except.noConfusion h
  · unfold binarySearchByName at h
    rw [if_neg hlen] at h
    have h2 : (match strCmp (nameAt packages (bsLoop
        (fun j => strCmp (nameAt packages j) name == .gt) 0 packages.length)) name with
      | Ordering.eq => (Except.ok (bsLoop
          (fun j => strCmp (nameAt packages j) name == .gt) 0 packages.length) : Except Nat Nat)
      | Ordering.lt => Except.error (bsLoop
          (fun j => strCmp (nameAt packages j) name == .gt) 0 packages.length + 1)
      | Ordering.gt => Except.error (bsLoop
          (fun j => strCmp (nameAt packages j) name == .gt) 0 packages.length)) =
        Except.ok i := h
    cases hc : strCmp (nameAt packages (bsLoop
        (fun j => strCmp (nameAt packages j) name == .gt) 0 packages.length)) name with
    | lt =>
      rw [hc] at h2
      exact Except.noConfusion (show (Except.error (bsLoop
        (fun j => strCmp (nameAt packages j) name == .gt) 0 packages.length + 1) :
          Except Nat Nat) = Except.ok i from h2)
    | eq =>
      rw [hc] at h2
      have h3 : (Except.ok (bsLoop
          (fun j => strCmp (nameAt packages j) name == .gt) 0 packages.length) :
            Except Nat Nat) = Except.ok i := h2
      have hi := Except.ok.inj h3
      constructor
      · rw [← hi]
        exact bsLoop_lt _ _ (by omega)
      · rw [← hi]
        exact strCmp_eq_eq.mp hc
    | gt =>
      rw [hc] at h2
      exact Except.noConfusion (show (Except.error (bsLoop
        (fun j => strCmp (nameAt packages j) name == .gt) 0 packages.length) :
          Except Nat Nat) = Except.ok i from h2)

theorem binarySearchByName_complete (packages : List Package) (name : String)
    (hsort : ∀ a b, a < b → b < packages.length →
      strCmp (nameAt packages a) (nameAt packages b) ≠ .gt)
    (e : Nat) (he : e < packages.length) (hname : nameAt packages e = name) :
    ∃ i, binarySearchByName packages name = .ok i := by
  have hlen : packages.length ≠ 0 := by omega
  have hfind := bsLoopFuel_finds packages name hsort packages.length 0 packages.length
    (Nat.le_refl _) (by omega) (by omega)
    ⟨e, Nat.zero_le _, by omega, by rw [hname]; exact strCmp_eq_eq.mpr rfl⟩
  refine ⟨bsLoop (fun j => strCmp (nameAt packages j) name == .gt) 0 packages.length, ?_⟩
  have h0 : binarySearchByName packages name = (match strCmp (nameAt packages (bsLoop
      (fun j => strCmp (nameAt packages j) name == .gt) 0 packages.length)) name with
    | Ordering.eq => (Except.ok (bsLoop
        (fun j => strCmp (nameAt packages j) name == .gt) 0 packages.length) : Except Nat Nat)
    | Ordering.lt => Except.error (bsLoop
        (fun j => strCmp (nameAt packages j) name == .gt) 0 packages.length + 1)
    | Ordering.gt => Except.error (bsLoop
        (fun j => strCmp (nameAt packages j) name == .gt) 0 packages.length)) := by
    unfold binarySearchByName
    rw [if_neg hlen]
  rw [h0]
  unfold bsLoop
  rw [hfind]

theorem getD_mem_takeWhile {α : Type} [Inhabited α] (pred : α → Bool) :
    ∀ (l : List α) (k : Nat), k < l.length →
      (∀ j, j ≤ k → pred (l.getD j default) = true) →
      l.getD k default ∈ l.takeWhile pred := by
  intro l
  induction l with
  | nil =>
    intro k hk
    simp at hk
  | cons a t ih =>
    intro k hk hall
    have ha : pred a = true := hall 0 (Nat.zero_le _)
    rw [List.takeWhile_cons pred a t, if_pos ha]
    cases k with
    | zero =>
      rw [List.getD_cons_zero]
      exact List.mem_cons_self a _
    | succ m =>
      rw [List.getD_cons_succ]
      refine List.mem_cons_of_mem a (ih m (by simpa using hk) ?_)
      intro j hj
      have hx := hall (j + 1) (by omega)
      rw [List.getD_cons_succ] at hx
      exact hx

theorem getD_drop_eq (packages : List Package) (i j : Nat) (hj : i + j < packages.length) :
    (packages.drop i).getD j default = packages.getD (i + j) default := by
  have hj2 : j < (packages.drop i).length := by rw [List.length_drop]; omega
  rw [List.getD_eq_getElem _ default hj2, List.getD_eq_getElem packages default hj]
  exact List.getElem_drop _

theorem getD_take_rev_eq (packages : List Package) (i j : Nat) (hi : i ≤ packages.length)
    (hj : j < i) :
    (packages.take i).reverse.getD j default = packages.getD (i - 1 - j) default := by
  have hlt : (packages.take i).length = i := by rw [List.length_take]; omega
  have hj2 : j < (packages.take i).reverse.length := by rw [List.length_reverse, hlt]; omega
  have hj4 : i - 1 - j < packages.length := by omega
  have h1 : (packages.take i).reverse.getD j default
      = (packages.take i).getD ((packages.take i).length - 1 - j) default := by
    have hj3 : (packages.take i).length - 1 - j < (packages.take i).length := by
      rw [hlt]; omega
    rw [List.getD_eq_getElem _ default hj2, List.getD_eq_getElem _ default hj3]
    exact List.getElem_reverse _
  have h2 : (packages.take i).length - 1 - j = i - 1 - j := by rw [hlt]
  have h3 : (packages.take i).getD (i - 1 - j) default = packages.getD (i - 1 - j) default := by
    have hj6 : i - 1 - j < (packages.take i).length := by rw [hlt]; omega
    rw [List.getD_eq_getElem _ default hj6, List.getD_eq_getElem _ default hj4]
    exact List.getElem_take _
  rw [h1, h2, h3]

theorem findMatchingPackage_repr (packages : List Package) (name : String)
    (req : VersionReq) {i : Nat} (hbs : binarySearchByName packages name = .ok i) :
    findMatchingPackage packages name req =
      if req.matches (packages.getD i default).version then some (packages.getD i default)
      else
        match (if i + 1 < packages.length then
            ((packages.drop (i + 1)).takeWhile (fun p => p.name == name)).find?
              (fun p => req.matches p.version)
          else none) with
        | some p => some p
        | none =>
          if 0 < i then
            ((packages.take i).reverse.takeWhile (fun p => p.name == name)).find?
              (fun p => req.matches p.version)
          else none := by
  unfold findMatchingPackage
  rw [hbs]

theorem findMatchingPackage_sound (packages : List Package) (name : String)
    (req : VersionReq) (p : Package)
    (h : findMatchingPackage packages name req = some p) :
    p ∈ packages ∧ p.name = name ∧ req.matches p.version = true := by
  cases hbs : binarySearchByName packages name with
  | error j =>
    unfold findMatchingPackage at h
    rw [hbs] at h
    exact Option.noConfusion (show (none : Option Package) = some p from h)
  | ok i =>
    obtain ⟨hi, hni⟩ := binarySearchByName_ok packages name hbs
    rw [findMatchingPackage_repr packages name req hbs] at h
    by_cases hm : req.matches (packages.getD i default).version = true
    · rw [if_pos hm] at h
      have hp : packages.getD i default = p := Option.some.inj h
      refine ⟨?_, ?_, ?_⟩
      · rw [← hp, List.getD_eq_getElem packages default hi]
        exact List.getElem_mem hi
      · rw [← hp]
        exact hni
      · rw [← hp]
        exact hm
    · rw [if_neg hm] at h
      cases hfwd : (if i + 1 < packages.length then
          ((packages.drop (i + 1)).takeWhile (fun q => q.name == name)).find?
            (fun q => req.matches q.version)
        else none) with
      | some q =>
        rw [hfwd] at h
        have hq : (some q : Option Package) = some p := h
        have hqp : q = p := Option.some.inj hq
        subst hqp
        by_cases hg : i + 1 < packages.length
        · rw [if_pos hg] at hfwd
          have hmem := List.mem_of_find?_eq_some hfwd
          have hpred := List.find?_some hfwd
          have hnm := List.mem_takeWhile_imp hmem
          refine ⟨?_, eq_of_beq hnm, hpred⟩
          exact List.drop_subset _ _ ((List.takeWhile_sublist _).subset hmem)
        · rw [if_neg hg] at hfwd
          exact Option.noConfusion hfwd
      | none =>
        rw [hfwd] at h
        have h2 : (if 0 < i then
            ((packages.take i).reverse.takeWhile (fun q => q.name == name)).find?
              (fun q => req.matches q.version)
          else none) = some p := h
        by_cases hg : 0 < i
        · rw [if_pos hg] at h2
          have hmem := List.mem_of_find?_eq_some h2
          have hpred := List.find?_some h2
          have hnm := List.mem_takeWhile_imp hmem
          refine ⟨?_, eq_of_beq hnm, hpred⟩
          have hmem2 : p ∈ (packages.take i).reverse := (List.takeWhile_sublist _).subset hmem
          exact List.take_subset _ _ (List.mem_reverse.mp hmem2)
        · rw [if_neg hg] at h2
          exact Option.noConfusion h2

theorem findMatchingPackage_complete (packages : List Package) (name : String)
    (req : VersionReq)
    (hsort : ∀ a b, a < b → b < packages.length →
      strCmp (nameAt packages a) (nameAt packages b) ≠ .gt)
    (p : Package) (hp : p ∈ packages) (hname : p.name = name)
    (hmatch : req.matches p.version = true) :
    (findMatchingPackage packages name req).isSome = true := by
  obtain ⟨e, he, hpe⟩ := List.getElem_of_mem hp
  have hpd : packages.getD e default = p := by
    rw [List.getD_eq_getElem packages default he]
    exact hpe
  have hnameAt : nameAt packages e = name := by
    unfold nameAt
    rw [hpd]
    exact hname
  obtain ⟨i, hbs⟩ := binarySearchByName_complete packages name hsort e he hnameAt
  obtain ⟨hi, hni⟩ := binarySearchByName_ok packages name hbs
  rw [findMatchingPackage_repr packages name req hbs]
  by_cases hm : req.matches (packages.getD i default).version = true
  · rw [if_pos hm]
    rfl
  · rw [if_neg hm]
    have hei : e ≠ i := by
      intro hEq
      apply hm
      rw [← hEq, hpd]
      exact hmatch
    have hsand : ∀ j, j < packages.length →
        ((e ≤ j ∧ j ≤ i) ∨ (i ≤ j ∧ j ≤ e)) → nameAt packages j = name := by
      intro j hj hcase
      rcases hcase with ⟨hc1, hc2⟩ | ⟨hc1, hc2⟩
      · rcases Nat.eq_or_lt_of_le hc1 with hq | hq
        · rw [← hq]
          exact hnameAt
        rcases Nat.eq_or_lt_of_le hc2 with hq2 | hq2
        · rw [hq2]
          exact hni
        have hl := hsort e j hq hj
        have hr := hsort j i hq2 hi
        rw [hnameAt] at hl
        rw [hni] at hr
        exact strCmp_antisymm hr hl
      · rcases Nat.eq_or_lt_of_le hc1 with hq | hq
        · rw [← hq]
          exact hni
        rcases Nat.eq_or_lt_of_le hc2 with hq2 | hq2
        · rw [hq2]
          exact hnameAt
        have hl := hsort i j hq hj
        have hr := hsort j e hq2 he
        rw [hni] at hl
        rw [hnameAt] at hr
        exact strCmp_antisymm hr hl
    rcases Nat.lt_or_ge i e with hie | hie
    · have hguard : i + 1 < packages.length := by omega
      have hk : e - (i + 1) < (packages.drop (i + 1)).length := by
        rw [List.length_drop]
        omega
      have hmemtw : p ∈ (packages.drop (i + 1)).takeWhile (fun q => q.name == name) := by
        have hgd : (packages.drop (i + 1)).getD (e - (i + 1)) default = p := by
          rw [getD_drop_eq packages (i + 1) (e - (i + 1)) (by omega)]
          have hidx : i + 1 + (e - (i + 1)) = e := by omega
          rw [hidx]
          exact hpd
        rw [← hgd]
        apply getD_mem_takeWhile _ _ _ hk
        intro j hj
        rw [getD_drop_eq packages (i + 1) j (by omega)]
        have hnj : nameAt packages (i + 1 + j) = name := by
          apply hsand (i + 1 + j) (by omega)
          right
          omega
        show ((packages.getD (i + 1 + j) default).name == name) = true
        have hx : (packages.getD (i + 1 + j) default).name = name := hnj
        rw [hx]
        exact beq_self_eq_true name
      have hfs : (((packages.drop (i + 1)).takeWhile (fun q => q.name == name)).find?
          (fun q => req.matches q.version)).isSome = true :=
        List.find?_isSome.mpr ⟨p, hmemtw, hmatch⟩
      obtain ⟨q, hq⟩ := Option.isSome_iff_exists.mp hfs
      rw [if_pos hguard, hq]
      rfl
    · have hei2 : e < i := by omega
      cases hfwd : (if i + 1 < packages.length then
          ((packages.drop (i + 1)).takeWhile (fun q => q.name == name)).find?
            (fun q => req.matches q.version)
        else none) with
      | some q => rfl
      | none =>
        have hipos : 0 < i := by omega
        have hk : i - 1 - e < (packages.take i).reverse.length := by
          rw [List.length_reverse, List.length_take]
          omega
        have hmemtw : p ∈ ((packages.take i).reverse).takeWhile (fun q => q.name == name) := by
          have hgd : ((packages.take i).reverse).getD (i - 1 - e) default = p := by
            rw [getD_take_rev_eq packages i (i - 1 - e) (by omega) (by omega)]
            have hidx : i - 1 - (i - 1 - e) = e := by omega
            rw [hidx]
            exact hpd
          rw [← hgd]
          apply getD_mem_takeWhile _ _ _ hk
          intro j hj
          rw [getD_take_rev_eq packages i j (by omega) (by omega)]
          have hnj : nameAt packages (i - 1 - j) = name := by
            apply hsand (i - 1 - j) (by omega)
            left
            omega
          show ((packages.getD (i - 1 - j) default).name == name) = true
          have hx : (packages.getD (i - 1 - j) default).name = name := hnj
          rw [hx]
          exact beq_self_eq_true name
        have hfs : ((((packages.take i).reverse).takeWhile (fun q => q.name == name)).find?
            (fun q => req.matches q.version)).isSome = true :=
          List.find?_isSome.mpr ⟨p, hmemtw, hmatch⟩
        obtain ⟨q, hq⟩ := Option.isSome_iff_exists.mp hfs
        show ((if 0 < i then
            ((packages.take i).reverse.takeWhile (fun q => q.name == name)).find?
              (fun q => req.matches q.version)
          else none)).isSome = true
        rw [if_pos hipos, hq]
        rfl

/-- C2: on a name-sorted lockfile, `find_matching_package` is sound (whatever
it returns is an entry of the lockfile bearing the requested name whose
version satisfies the requirement) and complete (it succeeds exactly when
some entry with that name has a satisfying version, so the `panic!` is
reached exactly when no name match exists or no same-named version
satisfies); moreover the binary-search anchor is returned directly when its
version satisfies the requirement, and otherwise a successful forward scan
takes precedence over the backward scan. -/
theorem spec_C2_lock_resolution (packages : List Package) (name : String) (req : VersionReq)
    (hsort : packages.Pairwise (fun p q => strCmp p.name q.name ≠ .gt)) :
    (∀ p, findMatchingPackage packages name req = some p →
        p ∈ packages ∧ p.name = name ∧ req.matches p.version = true) ∧
    ((findMatchingPackage packages name req).isSome = true ↔
        ∃ p ∈ packages, p.name = name ∧ req.matches p.version = true) ∧
    (∀ i, binarySearchByName packages name = .ok i →
        req.matches (packages.getD i default).version = true →
        findMatchingPackage packages name req = some (packages.getD i default)) ∧
    (∀ i q, binarySearchByName packages name = .ok i →
        req.matches (packages.getD i default).version = false →
        ((packages.drop (i + 1)).takeWhile (fun p => p.name == name)).find?
            (fun p => req.matches p.version) = some q →
        findMatchingPackage packages name req = some q) := by
  have hsortIdx : ∀ a b, a < b → b < packages.length →
      strCmp (nameAt packages a) (nameAt packages b) ≠ .gt := by
    intro a b hab hb
    have h0 := List.pairwise_iff_getElem.mp hsort a b (by omega) hb hab
    unfold nameAt
    rw [List.getD_eq_getElem packages default (by omega),
      List.getD_eq_getElem packages default hb]
    exact h0
  refine ⟨?_, ⟨?_, ?_⟩, ?_, ?_⟩
  · intro p hp
    exact findMatchingPackage_sound packages name req p hp
  · intro hs
    obtain ⟨p, hp⟩ := Option.isSome_iff_exists.mp hs
    obtain ⟨h1, h2, h3⟩ := findMatchingPackage_sound packages name req p hp
    exact ⟨p, h1, h2, h3⟩
  · rintro ⟨p, hp1, hp2, hp3⟩
    exact findMatchingPackage_complete packages name req hsortIdx p hp1 hp2 hp3
  · intro i hbs hm
    rw [findMatchingPackage_repr packages name req hbs, if_pos hm]
  · intro i q hbs hm hfind
    have hguard : i + 1 < packages.length := by
      have hq := List.mem_of_find?_eq_some hfind
      have hq2 : q ∈ packages.drop (i + 1) := (List.takeWhile_sublist _).subset hq
      have hne : packages.drop (i + 1) ≠ [] := List.ne_nil_of_mem hq2
      have hpos := List.length_pos.mpr hne
      rw [List.length_drop] at hpos
      omega
    rw [findMatchingPackage_repr packages name req hbs, if_neg (by rw [hm]; exact Bool.false_ne_true),
      if_pos hguard, hfind]

/-- Witness for C2: the demo lockfile is name-sorted, and resolution of
`aa` under `^2.0.0` succeeds exactly when some same-named entry satisfies
the requirement. -/
theorem spec_C2_lock_resolution_witness :
    ((findMatchingPackage c2Lock "aa" c2Req).isSome = true ↔
      ∃ p ∈ c2Lock, p.name = "aa" ∧ c2Req.matches p.version = true) :=
  (spec_C2_lock_resolution c2Lock "aa" c2Req (by decide)).2.1

theorem updateCounter_self (c : Nat → Nat) (o : Nat) (v : Nat) : updateCounter c o v o = v := by
  unfold updateCounter
  rw [if_pos rfl]

theorem updateCounter_other (c : Nat → Nat) (o : Nat) (v : Nat) (x : Nat) (h : x ≠ o) :
    updateCounter c o v x = c x := by
  unfold updateCounter
  rw [if_neg h]

theorem countPh_cons (t : ConcTask) (ts : List ConcTask) (o : Nat) (ph : TaskPhase) :
    countPh (t :: ts) o ph =
      (if t.owner = o ∧ t.phase = ph then 1 else 0) + countPh ts o ph := by
  unfold countPh
  rw [List.filter_cons]
  by_cases h : t.owner = o ∧ t.phase = ph
  · rw [if_pos (by simpa using h), if_pos h, List.length_cons]
    omega
  · rw [if_neg (by simpa using h), if_neg h]
    omega

theorem countPh_append (ts : List ConcTask) (t : ConcTask) (o : Nat) (ph : TaskPhase) :
    countPh (ts ++ [t]) o ph =
      countPh ts o ph + (if t.owner = o ∧ t.phase = ph then 1 else 0) := by
  unfold countPh
  rw [List.filter_append, List.length_append]
  congr 1
  rw [List.filter_cons]
  by_cases h : t.owner = o ∧ t.phase = ph
  · rw [if_pos (by simpa using h), if_pos h]
    rfl
  · rw [if_neg (by simpa using h), if_neg h]
    rfl

theorem setPhase_length : ∀ (ts : List ConcTask) (k : Nat) (ph : TaskPhase),
    (setPhase ts k ph).length = ts.length := by
  intro ts
  induction ts with
  | nil =>
    intro k ph
    cases k <;> rfl
  | cons t ts ih =>
    intro k ph
    cases k with
    | zero => rfl
    | succ m =>
      show (t :: setPhase ts m ph).length = (t :: ts).length
      rw [List.length_cons, List.length_cons, ih m ph]

theorem countPh_setPhase (o : Nat) (ph : TaskPhase) :
    ∀ (ts : List ConcTask) (k : Nat) (p1 : TaskPhase), k < ts.length →
      countPh (setPhase ts k p1) o ph +
        (if (ts.getD k default).owner = o ∧ (ts.getD k default).phase = ph then 1 else 0) =
      countPh ts o ph +
        (if (ts.getD k default).owner = o ∧ p1 = ph then 1 else 0) := by
  intro ts
  induction ts with
  | nil =>
    intro k p1 hk
    simp at hk
  | cons t ts ih =>
    intro k p1 hk
    cases k with
    | zero =>
      rw [show setPhase (t :: ts) 0 p1 = ⟨t.owner, p1⟩ :: ts from rfl]
      rw [countPh_cons, countPh_cons, List.getD_cons_zero]
      show ((if t.owner = o ∧ p1 = ph then 1 else 0) + countPh ts o ph) +
          (if t.owner = o ∧ t.phase = ph then 1 else 0) =
        ((if t.owner = o ∧ t.phase = ph then 1 else 0) + countPh ts o ph) +
          (if t.owner = o ∧ p1 = ph then 1 else 0)
      omega
    | succ m =>
      rw [show setPhase (t :: ts) (m + 1) p1 = t :: setPhase ts m p1 from rfl]
      rw [countPh_cons, countPh_cons, List.getD_cons_succ]
      have hih := ih m p1 (by simp only [List.length_cons] at hk; omega)
      omega

theorem countPh_setPhase_untouched (o : Nat) (ph : TaskPhase) (ts : List ConcTask) (k : Nat)
    (p1 : TaskPhase) (hk : k < ts.length)
    (h0 : ¬((ts.getD k default).owner = o ∧ (ts.getD k default).phase = ph))
    (h1 : ¬((ts.getD k default).owner = o ∧ p1 = ph)) :
    countPh (setPhase ts k p1) o ph = countPh ts o ph := by
  have h := countPh_setPhase o ph ts k p1 hk
  rw [if_neg h0, if_neg h1] at h
  omega

theorem countPh_setPhase_inc (o : Nat) (ph : TaskPhase) (ts : List ConcTask) (k : Nat)
    (p1 : TaskPhase) (hk : k < ts.length)
    (h0 : ¬((ts.getD k default).owner = o ∧ (ts.getD k default).phase = ph))
    (h1 : (ts.getD k default).owner = o ∧ p1 = ph) :
    countPh (setPhase ts k p1) o ph = countPh ts o ph + 1 := by
  have h := countPh_setPhase o ph ts k p1 hk
  rw [if_neg h0, if_pos h1] at h
  omega

theorem countPh_setPhase_dec (o : Nat) (ph : TaskPhase) (ts : List ConcTask) (k : Nat)
    (p1 : TaskPhase) (hk : k < ts.length)
    (h0 : (ts.getD k default).owner = o ∧ (ts.getD k default).phase = ph)
    (h1 : ¬((ts.getD k default).owner = o ∧ p1 = ph)) :
    countPh (setPhase ts k p1) o ph + 1 = countPh ts o ph := by
  have h := countPh_setPhase o ph ts k p1 hk
  rw [if_pos h0, if_neg h1] at h
  omega

/-! One step preserves the slot-accounting invariant: each invocation's
counter equals its running tasks plus its panicked tasks (panicked tasks
never give their slot back), and never exceeds 5. -/
theorem concStep_inv (s1 s2 : ConcState) (hstep : ConcStep s1 s2)
    (ih : ∀ o, s1.counter o =
        countPh s1.tasks o TaskPhase.running + countPh s1.tasks o TaskPhase.panicked ∧
      s1.counter o ≤ 5) :
    ∀ o, s2.counter o =
        countPh s2.tasks o TaskPhase.running + countPh s2.tasks o TaskPhase.panicked ∧
      s2.counter o ≤ 5 := by
  cases hstep with
  | spawn o2 =>
    intro o
    obtain ⟨ih1, ih2⟩ := ih o
    constructor
    · show s1.counter o =
        countPh (s1.tasks ++ [⟨o2, TaskPhase.waiting⟩]) o TaskPhase.running +
        countPh (s1.tasks ++ [⟨o2, TaskPhase.waiting⟩]) o TaskPhase.panicked
      rw [countPh_append, countPh_append]
      have e1 : ¬((⟨o2, TaskPhase.waiting⟩ : ConcTask).owner = o ∧
          (⟨o2, TaskPhase.waiting⟩ : ConcTask).phase = TaskPhase.running) :=
        fun hx => TaskPhase.noConfusion hx.2
      have e2 : ¬((⟨o2, TaskPhase.waiting⟩ : ConcTask).owner = o ∧
          (⟨o2, TaskPhase.waiting⟩ : ConcTask).phase = TaskPhase.panicked) :=
        fun hx => TaskPhase.noConfusion hx.2
      rw [if_neg e1, if_neg e2]
      omega
    · exact ih2
  | acquire k hk hw hc =>
    intro o
    obtain ⟨ih1, ih2⟩ := ih o
    by_cases ho : (s1.tasks.getD k default).owner = o
    · have hrun : countPh (setPhase s1.tasks k TaskPhase.running) o TaskPhase.running =
          countPh s1.tasks o TaskPhase.running + 1 :=
        countPh_setPhase_inc o TaskPhase.running s1.tasks k TaskPhase.running hk
          (fun hx => TaskPhase.noConfusion (hw.symm.trans hx.2)) ⟨ho, rfl⟩
      have hpan : countPh (setPhase s1.tasks k TaskPhase.running) o TaskPhase.panicked =
          countPh s1.tasks o TaskPhase.panicked :=
        countPh_setPhase_untouched o TaskPhase.panicked s1.tasks k TaskPhase.running hk
          (fun hx => TaskPhase.noConfusion (hw.symm.trans hx.2))
          (fun hx => TaskPhase.noConfusion hx.2)
      constructor
      · show updateCounter s1.counter (s1.tasks.getD k default).owner
            (s1.counter (s1.tasks.getD k default).owner + 1) o =
          countPh (setPhase s1.tasks k TaskPhase.running) o TaskPhase.running +
          countPh (setPhase s1.tasks k TaskPhase.running) o TaskPhase.panicked
        rw [ho, updateCounter_self, hrun, hpan]
        omega
      · show updateCounter s1.counter (s1.tasks.getD k default).owner
            (s1.counter (s1.tasks.getD k default).owner + 1) o ≤ 5
        rw [ho, updateCounter_self]
        rw [ho] at hc
        omega
    · have hrun : countPh (setPhase s1.tasks k TaskPhase.running) o TaskPhase.running =
          countPh s1.tasks o TaskPhase.running :=
        countPh_setPhase_untouched o TaskPhase.running s1.tasks k TaskPhase.running hk
          (fun hx => ho hx.1) (fun hx => ho hx.1)
      have hpan : countPh (setPhase s1.tasks k TaskPhase.running) o TaskPhase.panicked =
          countPh s1.tasks o TaskPhase.panicked :=
        countPh_setPhase_untouched o TaskPhase.panicked s1.tasks k TaskPhase.running hk
          (fun hx => ho hx.1) (fun hx => ho hx.1)
      constructor
      · show updateCounter s1.counter (s1.tasks.getD k default).owner
            (s1.counter (s1.tasks.getD k default).owner + 1) o =
          countPh (setPhase s1.tasks k TaskPhase.running) o TaskPhase.running +
          countPh (setPhase s1.tasks k TaskPhase.running) o TaskPhase.panicked
        rw [updateCounter_other _ _ _ o (fun hx => ho hx.symm), hrun, hpan]
        exact ih1
      · show updateCounter s1.counter (s1.tasks.getD k default).owner
            (s1.counter (s1.tasks.getD k default).owner + 1) o ≤ 5
        rw [updateCounter_other _ _ _ o (fun hx => ho hx.symm)]
        exact ih2
  | finish k hk hr =>
    intro o
    obtain ⟨ih1, ih2⟩ := ih o
    by_cases ho : (s1.tasks.getD k default).owner = o
    · have hrun : countPh (setPhase s1.tasks k TaskPhase.done) o TaskPhase.running + 1 =
          countPh s1.tasks o TaskPhase.running :=
        countPh_setPhase_dec o TaskPhase.running s1.tasks k TaskPhase.done hk
          ⟨ho, hr⟩ (fun hx => TaskPhase.noConfusion hx.2)
      have hpan : countPh (setPhase s1.tasks k TaskPhase.done) o TaskPhase.panicked =
          countPh s1.tasks o TaskPhase.panicked :=
        countPh_setPhase_untouched o TaskPhase.panicked s1.tasks k TaskPhase.done hk
          (fun hx => TaskPhase.noConfusion (hr.symm.trans hx.2))
          (fun hx => TaskPhase.noConfusion hx.2)
      constructor
      · show updateCounter s1.counter (s1.tasks.getD k default).owner
            (s1.counter (s1.tasks.getD k default).owner - 1) o =
          countPh (setPhase s1.tasks k TaskPhase.done) o TaskPhase.running +
          countPh (setPhase s1.tasks k TaskPhase.done) o TaskPhase.panicked
        rw [ho, updateCounter_self, hpan]
        omega
      · show updateCounter s1.counter (s1.tasks.getD k default).owner
            (s1.counter (s1.tasks.getD k default).owner - 1) o ≤ 5
        rw [ho, updateCounter_self]
        omega
    · have hrun : countPh (setPhase s1.tasks k TaskPhase.done) o TaskPhase.running =
          countPh s1.tasks o TaskPhase.running :=
        countPh_setPhase_untouched o TaskPhase.running s1.tasks k TaskPhase.done hk
          (fun hx => ho hx.1) (fun hx => ho hx.1)
      have hpan : countPh (setPhase s1.tasks k TaskPhase.done) o TaskPhase.panicked =
          countPh s1.tasks o TaskPhase.panicked :=
        countPh_setPhase_untouched o TaskPhase.panicked s1.tasks k TaskPhase.done hk
          (fun hx => ho hx.1) (fun hx => ho hx.1)
      constructor
      · show updateCounter s1.counter (s1.tasks.getD k default).owner
            (s1.counter (s1.tasks.getD k default).owner - 1) o =
          countPh (setPhase s1.tasks k TaskPhase.done) o TaskPhase.running +
          countPh (setPhase s1.tasks k TaskPhase.done) o TaskPhase.panicked
        rw [updateCounter_other _ _ _ o (fun hx => ho hx.symm), hrun, hpan]
        exact ih1
      · show updateCounter s1.counter (s1.tasks.getD k default).owner
            (s1.counter (s1.tasks.getD k default).owner - 1) o ≤ 5
        rw [updateCounter_other _ _ _ o (fun hx => ho hx.symm)]
        exact ih2
  | unwind k hk hr =>
    intro o
    obtain ⟨ih1, ih2⟩ := ih o
    by_cases ho : (s1.tasks.getD k default).owner = o
    · have hrun : countPh (setPhase s1.tasks k TaskPhase.panicked) o TaskPhase.running + 1 =
          countPh s1.tasks o TaskPhase.running :=
        countPh_setPhase_dec o TaskPhase.running s1.tasks k TaskPhase.panicked hk
          ⟨ho, hr⟩ (fun hx => TaskPhase.noConfusion hx.2)
      have hpan : countPh (setPhase s1.tasks k TaskPhase.panicked) o TaskPhase.panicked =
          countPh s1.tasks o TaskPhase.panicked + 1 :=
        countPh_setPhase_inc o TaskPhase.panicked s1.tasks k TaskPhase.panicked hk
          (fun hx => TaskPhase.noConfusion (hr.symm.trans hx.2)) ⟨ho, rfl⟩
      constructor
      · show s1.counter o =
          countPh (setPhase s1.tasks k TaskPhase.panicked) o TaskPhase.running +
          countPh (setPhase s1.tasks k TaskPhase.panicked) o TaskPhase.panicked
        rw [hpan]
        omega
      · exact ih2
    · have hrun : countPh (setPhase s1.tasks k TaskPhase.panicked) o TaskPhase.running =
          countPh s1.tasks o TaskPhase.running :=
        countPh_setPhase_untouched o TaskPhase.running s1.tasks k TaskPhase.panicked hk
          (fun hx => ho hx.1) (fun hx => ho hx.1)
      have hpan : countPh (setPhase s1.tasks k TaskPhase.panicked) o TaskPhase.panicked =
          countPh s1.tasks o TaskPhase.panicked :=
        countPh_setPhase_untouched o TaskPhase.panicked s1.tasks k TaskPhase.panicked hk
          (fun hx => ho hx.1) (fun hx => ho hx.1)
      constructor
      · show s1.counter o =
          countPh (setPhase s1.tasks k TaskPhase.panicked) o TaskPhase.running +
          countPh (setPhase s1.tasks k TaskPhase.panicked) o TaskPhase.panicked
        rw [hrun, hpan]
        exact ih1
      · exact ih2

/-- C5 (amended): in every state reachable by the fetch machinery, each
invocation's `active_requests` counter equals that invocation's running
fetches plus its panicked fetches (a panicked fetch skips the decrement and
permanently retains its slot), and each counter — hence each invocation's
number of simultaneously in-flight fetches — is bounded by 5. The bound is
per invocation of `retrieve_outdated_dependencies`, not one global cap. -/
theorem spec_C5_slot_counter (s : ConcState)
    (h : Relation.ReflTransGen ConcStep concInit s) :
    ∀ o, s.counter o =
        countPh s.tasks o TaskPhase.running + countPh s.tasks o TaskPhase.panicked ∧
      s.counter o ≤ 5 ∧ countPh s.tasks o TaskPhase.running ≤ 5 := by
  have hmain : ∀ t, Relation.ReflTransGen ConcStep concInit t →
      ∀ o, t.counter o =
          countPh t.tasks o TaskPhase.running + countPh t.tasks o TaskPhase.panicked ∧
        t.counter o ≤ 5 := by
    intro t ht
    induction ht with
    | refl =>
      intro o
      exact ⟨rfl, by show (0 : Nat) ≤ 5; omega⟩
    | tail h1 h2 ih =>
      exact concStep_inv _ _ h2 ih
  intro o
  obtain ⟨h1, h2⟩ := hmain s h o
  exact ⟨h1, h2, by omega⟩

/-- Witness for C5 at a concrete reachable state: one task spawned for
invocation 0 and its slot acquired. -/
theorem spec_C5_slot_counter_witness :
    c5Demo1.counter 0 =
        countPh c5Demo1.tasks 0 TaskPhase.running + countPh c5Demo1.tasks 0 TaskPhase.panicked ∧
      c5Demo1.counter 0 ≤ 5 ∧ countPh c5Demo1.tasks 0 TaskPhase.running ≤ 5 :=
  spec_C5_slot_counter c5Demo1
    (Relation.ReflTransGen.tail
      (Relation.ReflTransGen.tail Relation.ReflTransGen.refl (ConcStep.spawn concInit 0))
      (show ConcStep _ c5Demo1 from
        ConcStep.acquire _ 0 (by decide) (by decide) (by decide)))
    0

/-- C5 counterexample: the cap is not one single global cap, and panicking
fetches leak their slot. A run with two invocations (the root and one
workspace member) reaches a state with 6 simultaneously running fetches,
exceeding the per-counter constant 5; and a run whose only fetch panics
reaches a state whose counter still holds 1 slot while no fetch of that
invocation is running. -/
theorem spec_C5_counterexample :
    (∃ s, Relation.ReflTransGen ConcStep concInit s ∧
      (s.tasks.filter (fun t => decide (t.phase = TaskPhase.running))).length = 6) ∧
    (∃ s, Relation.ReflTransGen ConcStep concInit s ∧
      s.counter 0 = 1 ∧ countPh s.tasks 0 TaskPhase.running = 0 ∧ s.tasks ≠ []) := by
  constructor
  · exact ⟨_, Relation.ReflTransGen.tail (Relation.ReflTransGen.tail (Relation.ReflTransGen.tail
      (Relation.ReflTransGen.tail (Relation.ReflTransGen.tail (Relation.ReflTransGen.tail
      (Relation.ReflTransGen.tail (Relation.ReflTransGen.tail (Relation.ReflTransGen.tail
      (Relation.ReflTransGen.tail (Relation.ReflTransGen.tail (Relation.ReflTransGen.tail
      Relation.ReflTransGen.refl
      (ConcStep.spawn _ 0)) (ConcStep.spawn _ 0)) (ConcStep.spawn _ 0))
      (ConcStep.spawn _ 1)) (ConcStep.spawn _ 1)) (ConcStep.spawn _ 1))
      (ConcStep.acquire _ 0 (by decide) (by decide) (by decide)))
      (ConcStep.acquire _ 1 (by decide) (by decide) (by decide)))
      (ConcStep.acquire _ 2 (by decide) (by decide) (by decide)))
      (ConcStep.acquire _ 3 (by decide) (by decide) (by decide)))
      (ConcStep.acquire _ 4 (by decide) (by decide) (by decide)))
      (ConcStep.acquire _ 5 (by decide) (by decide) (by decide)), by decide⟩
  · exact ⟨_, Relation.ReflTransGen.tail (Relation.ReflTransGen.tail (Relation.ReflTransGen.tail
      Relation.ReflTransGen.refl (ConcStep.spawn _ 0))
      (ConcStep.acquire _ 0 (by decide) (by decide) (by decide)))
      (ConcStep.unwind _ 0 (by decide) (by decide)), by decide, by decide, by decide⟩
